import Mathlib

/-!
# Verification of the voice-assistant turn pipeline

Shallow embedding of the turn pipeline of the Gyaanchand voice assistant:

* `backend/ttsStreamSentences.js` — text sanitizer, sentence/clause chunker and
  the synthesis streamer (`sanitizeForTTS`, `splitIntoChunks`,
  `murfStreamSentences`);
* `backend/intelligentRouter.js` — response cache (`getCacheKey`,
  `getCachedResponse`, `setCachedResponse`), intent classifier
  (`classifyIntent`) and backend router with fallback (`routeRequest`);
* the enhanced server (`server-enhanced.js`) — the per-connection recognition
  event handler with barge-in/interrupt handling, debounced turn promotion,
  memory updates and the reply pipeline;
* `backend/server.js` — the simpler variant's turn-completion predicate.

Strings are modelled as `List Char` (code points).  JavaScript string length
is the number of UTF-16 code units; for the inputs relevant here (no astral
code points) the two coincide.  Floating-point confidences are modelled as
rationals; the comparisons in the source involve only simple thresholds.
External services (Gemini, Groq, Murf, Deepgram, the MD5 hash from `crypto`)
are modelled as oracle parameters; everything else is translated from the
source.
-/

namespace Gyaanchand

/-! ## JavaScript character classes and string primitives -/

/-- The JavaScript `\s` class (WhiteSpace ∪ LineTerminator), as used by
`String.prototype.trim` and the `\s` regex escape. -/
def isJsWs (c : Char) : Bool :=
  c = ' ' || c = '\t' || c = '\n' || (c.toNat = 0x0B) || (c.toNat = 0x0C) ||
  c = '\r' || (c.toNat = 0xA0) || (c.toNat = 0x1680) ||
  (0x2000 ≤ c.toNat && c.toNat ≤ 0x200A) ||
  (c.toNat = 0x2028) || (c.toNat = 0x2029) || (c.toNat = 0x202F) ||
  (c.toNat = 0x205F) || (c.toNat = 0x3000) || (c.toNat = 0xFEFF)

/-- `String.prototype.trim`: strip leading and trailing whitespace. -/
def jsTrim (l : List Char) : List Char :=
  ((l.dropWhile isJsWs).reverse.dropWhile isJsWs).reverse

/-- A JS control character removed by `replace(/[\u0000-\u001F\u007F]/g, "")`. -/
def isCtrl (c : Char) : Bool :=
  c.toNat ≤ 0x1F || c.toNat = 0x7F

/-- One step of `replace(/\s+/g, " ")`: the flag records whether the previous
character was whitespace (i.e. we are inside a run already replaced). -/
def collapseWsAux : Bool → List Char → List Char
  | _, [] => []
  | prevWs, c :: rest =>
    if isJsWs c then
      if prevWs then collapseWsAux true rest
      else ' ' :: collapseWsAux true rest
    else c :: collapseWsAux false rest

/-- `replace(/\s+/g, " ")`: every maximal whitespace run becomes one space. -/
def collapseWs (l : List Char) : List Char := collapseWsAux false l

/-- `replace(/[""«»„]/g, '"')` followed by `replace(/['']/g, "'")`:
normalize quote glyphs (the two passes touch disjoint characters). -/
def normalizeQuotes (c : Char) : Char :=
  if c = '“' || c = '”' || c = '«' || c = '»' || c = '„' then '"'
  else if c = '‘' || c = '’' then '\''
  else c

/-- `replace(/…/g, "...")`: expand the ellipsis glyph. -/
def expandEllipsis : List Char → List Char
  | [] => []
  | c :: rest =>
    if c = '…' then '.' :: '.' :: '.' :: expandEllipsis rest
    else c :: expandEllipsis rest

/-- `replace(/\*\*/g, '')`: remove each (leftmost-first) pair of asterisks. -/
def removeDoubleStar : List Char → List Char
  | '*' :: '*' :: rest => removeDoubleStar rest
  | c :: rest => c :: removeDoubleStar rest
  | [] => []

/-- Case-insensitive literal match: on success return the rest of the input. -/
def matchCI : List Char → List Char → Option (List Char)
  | [], rest => some rest
  | _ :: _, [] => none
  | p :: ps, c :: cs => if p.toLower = c.toLower then matchCI ps cs else none

/-- `replace(/^Gyaanchand:\s*/i, '')`: strip the assistant's echoed name at
the start of the text (with any following whitespace). -/
def stripBotName (l : List Char) : List Char :=
  match matchCI "gyaanchand:".data l with
  | some rest => rest.dropWhile isJsWs
  | none => l

/-- `sanitizeForTTS` from `backend/ttsStreamSentences.js`, pass for pass:
quote glyphs, ellipsis, `**`, backticks, echoed name, whitespace collapse,
trim, control characters.  (JS `if (!text) return ""` is the identity on the
empty list.) -/
def sanitizeForTTS (l : List Char) : List Char :=
  let t1 := l.map normalizeQuotes
  let t2 := expandEllipsis t1
  let t3 := removeDoubleStar t2
  let t4 := t3.filter (fun c => c.toNat ≠ 96)
  let t5 := stripBotName t4
  let t6 := jsTrim (collapseWs t5)
  t6.filter (fun c => !(isCtrl c))

/-! ## Sentence split: `text.split(/(?<=[.!?])\s+/).filter(Boolean)`

A split point is a maximal whitespace run whose preceding character is
`.`, `!` or `?`; the run is consumed.  The state machine below processes the
text left to right: `inSep = true` while consuming a separator run. -/

/-- Does the accumulated segment end in a sentence-terminal character? -/
def endsSentence (acc : List Char) : Bool :=
  match acc.getLast? with
  | some c => c = '.' || c = '!' || c = '?'
  | none => false

/-- State machine for `split(/(?<=[.!?])\s+/)` (segments in order, including
empty ones, exactly as JS produces them). -/
def sentSplitAux : Bool → List Char → List Char → List (List Char)
  | _, [], acc => [acc]
  | false, c :: rest, acc =>
    if isJsWs c && endsSentence acc then acc :: sentSplitAux true rest []
    else sentSplitAux false rest (acc ++ [c])
  | true, c :: rest, acc =>
    if isJsWs c then sentSplitAux true rest acc
    else sentSplitAux false rest (acc ++ [c])

/-- `text.split(/(?<=[.!?])\s+/).filter(Boolean)`. -/
def sentenceSplit (l : List Char) : List (List Char) :=
  (sentSplitAux false l []).filter (fun s => !(s.isEmpty))

/-! ## Secondary split: `s.split(/,\s+|;\s+|\s+and\s+|\s+but\s+/)`

The scanner consumes the leftmost separator match each time.  A whitespace
run matches the third/fourth alternative exactly when it is followed by the
literal `and`/`but` and at least one further whitespace character (the
leading `\s+` cannot help by backtracking, because the character after any
shorter whitespace prefix is still whitespace, not `a`/`b`). -/

/-- After a whitespace run: try to consume `and`/`but` plus a trailing
whitespace run; return the remaining input on success. -/
def chompAndBut (l : List Char) : Option (List Char) :=
  match l with
  | c1 :: c2 :: c3 :: d :: r =>
    if ((c1 = 'a' && c2 = 'n' && c3 = 'd') || (c1 = 'b' && c2 = 'u' && c3 = 't'))
        && isJsWs d
    then some ((d :: r).dropWhile isJsWs) else none
  | _ => none

/-- Fuelled scanner for the secondary split.  `fuel ≥ input.length` suffices:
every step consumes at least one character and one unit of fuel. -/
def secSplitAux : Nat → List Char → List Char → List (List Char)
  | 0, input, acc => [acc ++ input]
  | _ + 1, [], acc => [acc]
  | fuel + 1, c :: rest, acc =>
    if c = ',' || c = ';' then
      match rest with
      | d :: _ =>
        if isJsWs d then acc :: secSplitAux fuel (rest.dropWhile isJsWs) []
        else secSplitAux fuel rest (acc ++ [c])
      | [] => secSplitAux fuel [] (acc ++ [c])
    else if isJsWs c then
      match chompAndBut (rest.dropWhile isJsWs) with
      | some rest' => acc :: secSplitAux fuel rest' []
      | none => secSplitAux fuel (rest.dropWhile isJsWs)
          (acc ++ (c :: rest.takeWhile isJsWs))
    else secSplitAux fuel rest (acc ++ [c])

/-- `s.split(/,\s+|;\s+|\s+and\s+|\s+but\s+/)` (no `filter`, as in source). -/
def splitLongSentence (s : List Char) : List (List Char) :=
  secSplitAux (s.length + 1) s []

/-! ## `splitIntoChunks` from `backend/ttsStreamSentences.js` -/

/-- Inner loop over the parts of an over-long sentence.  Note the source does
*not* reset `current` before this loop, so the state threads through. -/
def secStep (st : List (List Char) × List Char) (p : List Char) :
    List (List Char) × List Char :=
  let (chunks, cur) := st
  if (jsTrim (cur ++ ' ' :: p)).length ≤ 150 then
    (chunks, if cur.isEmpty then p else cur ++ ' ' :: p)
  else
    ((if cur.isEmpty then chunks else chunks ++ [cur]), p)

/-- Outer loop body over sentences (`for (const s of sentences)`). -/
def primaryStep (st : List (List Char) × List Char) (s : List Char) :
    List (List Char) × List Char :=
  let (chunks, cur) := st
  let candidate := if cur.isEmpty then s else cur ++ ' ' :: s
  if candidate.length ≤ 150 then (chunks, candidate)
  else
    let chunks1 := if cur.isEmpty then chunks else chunks ++ [cur]
    if s.length ≤ 150 then (chunks1, s)
    else (splitLongSentence s).foldl secStep (chunks1, cur)

/-- `if (current) chunks.push(current)` after the loop. -/
def finishChunks (st : List (List Char) × List Char) : List (List Char) :=
  if st.2.isEmpty then st.1 else st.1 ++ [st.2]

/-- `splitIntoChunks(text)`: sanitize, split into sentences, greedily pack. -/
def splitIntoChunks (l : List Char) : List (List Char) :=
  let t := sanitizeForTTS l
  if t.isEmpty then []
  else finishChunks ((sentenceSplit t).foldl primaryStep ([], []))

/-- Join chunks with single spaces (the spec's round-trip reading). -/
def joinSpace : List (List Char) → List Char
  | [] => []
  | [c] => c
  | c :: rest => c ++ ' ' :: joinSpace rest

/-! ## Boundary-occurrence predicates

`hasSB l` — the text contains a sentence boundary in the splitter's sense:
a `.`/`!`/`?` immediately followed by whitespace.  `hasSec l` — the text
contains an occurrence of one of the secondary separators
(`,\s+`, `;\s+`, `\s+and\s+`, `\s+but\s+`).  A chunk with neither is an
*atomic fragment* in the spec's sense. -/

/-- Sentence-terminal characters (`[.!?]`). -/
def isSentEnd (c : Char) : Bool := c = '.' || c = '!' || c = '?'

/-- A sentence boundary (`[.!?]` followed by whitespace) occurs in `l`. -/
def hasSB : List Char → Bool
  | a :: b :: rest => (isSentEnd a && isJsWs b) || hasSB (b :: rest)
  | _ => false

/-- Is the first character (if any) whitespace? -/
def headIsWs : List Char → Bool
  | d :: _ => isJsWs d
  | [] => false

/-- A secondary-separator match begins at the head of `l`. -/
def startsSep (l : List Char) : Bool :=
  match l with
  | [] => false
  | c :: rest =>
    if c = ',' || c = ';' then headIsWs rest
    else isJsWs c && (chompAndBut (rest.dropWhile isJsWs)).isSome

/-- A secondary-separator match begins at some nonempty suffix of `acc`,
viewed as a prefix of `acc ++ input` (the scanner's cross-boundary check). -/
def crossSep : List Char → List Char → Bool
  | [], _ => false
  | c :: rest, input => startsSep (c :: rest ++ input) || crossSep rest input

/-- A secondary separator occurs somewhere in `l`. -/
def hasSec (l : List Char) : Bool := crossSep l []

/-- No two adjacent plain spaces. -/
def noDoubleSpace : List Char → Bool
  | a :: b :: rest => !(a = ' ' && b = ' ') && noDoubleSpace (b :: rest)
  | _ => true

/-- Whitespace-normalized text: every whitespace character is a plain space,
no two spaces are adjacent, and the text does not end with a space.  This is
the shape `sanitizeForTTS` produces for inputs free of non-whitespace
control characters (collapse + trim make it so, and the final
control-character filter is then the identity). -/
def wsTame (l : List Char) : Prop :=
  (∀ c ∈ l, isJsWs c → c = ' ') ∧
  noDoubleSpace l = true ∧
  l.getLast? ≠ some ' '

instance wsTame.instDecidable (l : List Char) : Decidable (wsTame l) :=
  inferInstanceAs (Decidable ((∀ c ∈ l, isJsWs c → c = ' ') ∧
    noDoubleSpace l = true ∧
    l.getLast? ≠ some ' '))

/-- A well-formed chunk: within the length bound after trimming, or an
atomic fragment (no sentence boundary, no secondary separator inside). -/
def chunkOk (x : List Char) : Prop :=
  (jsTrim x).length ≤ 150 ∨ (hasSB x = false ∧ hasSec x = false)

/-! ## Concrete inputs refuting the unrestricted chunker claims -/

/-- A single 153-character sentence with an internal `", "`: the secondary
split drops the separator, so concatenating chunks loses the comma. -/
def roundTripCex : List Char := List.replicate 149 'a' ++ ", bb".data

/-- A short sentence followed by an over-long one: the stale `current`
carry-over plus a part with trailing whitespace yields a 151-character chunk
that contains a sentence boundary (so it is not an atomic fragment). -/
def boundCex : List Char := "XY. ".data ++ List.replicate 146 'c' ++ " , dd".data

/-! ## Backend Router: `backend/intelligentRouter.js`

The reasoning backends (Gemini Flash, Gemini Pro, Groq) and the MD5 hash are
external collaborators; they enter the model as oracle parameters.  The
prompt strings built by `routeRequest` only feed those external calls, so
they do not appear in the model.  Everything else — intent classification,
cache lookup/store, primary selection, the fallback `catch` logic and reply
cleaning — is translated from the source. -/

/-- `\w` = `[A-Za-z0-9_]`. -/
def isWordChar (c : Char) : Bool :=
  ('a' ≤ c && c ≤ 'z') || ('A' ≤ c && c ≤ 'Z') || ('0' ≤ c && c ≤ '9') || c = '_'

/-- Lowercase a string (`String.prototype.toLowerCase` on ASCII; regex `/i`). -/
def toLowerStr (l : List Char) : List Char := l.map Char.toLower

/-- Literal prefix match on already-lowercased text; returns the remainder. -/
def matchLit : List Char → List Char → Option (List Char)
  | [], rest => some rest
  | _ :: _, [] => none
  | p :: ps, c :: cs => if p = c then matchLit ps cs else none

/-- `\s+`: at least one whitespace character, consumed greedily. -/
def wsPlus (l : List Char) : Option (List Char) :=
  match l with
  | c :: rest => if isJsWs c then some (rest.dropWhile isJsWs) else none
  | [] => none

/-- A JS regex line terminator (which `.` does not match). -/
def isLineTerm (c : Char) : Bool :=
  c = '\n' || c = '\r' || (c.toNat = 0x2028) || (c.toNat = 0x2029)

/-- `p₁.*p₂.*…`: the literals in order, with arbitrary non-line-terminator
gaps, starting at the current position (fuelled; fuel ≥ length + #patterns). -/
def inLineSeqAux : Nat → List (List Char) → List Char → Bool
  | _, [], _ => true
  | 0, _ :: _, _ => false
  | fuel + 1, p :: ps, s =>
    match s with
    | [] => (matchLit p []).isSome && inLineSeqAux fuel ps []
    | c :: rest =>
      (match matchLit p s with
       | some r => inLineSeqAux fuel ps r
       | none => false) ||
      (!(isLineTerm c) && inLineSeqAux fuel (p :: ps) rest)

/-- `/first.*p₂.*p₃…/i.test(t)`: an occurrence of `first` anywhere, then the
remaining literals in order on the same line. -/
def seqCI (first : String) (rest : List String) (t : List Char) : Bool :=
  let lt := toLowerStr t
  lt.tails.any (fun s =>
    match matchLit first.data s with
    | some r =>
      inLineSeqAux (r.length + rest.length + 1) (rest.map (fun w => w.data)) r
    | none => false)

/-- `/pat/i.test(t)` for a plain literal pattern. -/
def containsCI (pat : String) (t : List Char) : Bool := seqCI pat [] t

/-- `/send\s+(an?\s+)?email/i` at the current position (lowercased text). -/
def sendEmailAt (s : List Char) : Bool :=
  match (matchLit "send".data s).bind wsPlus with
  | none => false
  | some r2 =>
    (matchLit "email".data r2).isSome ||
    (match (matchLit "an".data r2).bind wsPlus with
     | some r3 => (matchLit "email".data r3).isSome
     | none => false) ||
    (match (matchLit "a".data r2).bind wsPlus with
     | some r3 => (matchLit "email".data r3).isSome
     | none => false)

/-- `/lit₁\s+lit₂/i` at the current position. -/
def litWsLitAt (w1 w2 : String) (s : List Char) : Bool :=
  match (matchLit w1.data s).bind wsPlus with
  | none => false
  | some r => (matchLit w2.data r).isSome

/-- `/w₁\s+(a\s+)?w₂/i` at the current position. -/
def litOptAAt (w1 w2 : String) (s : List Char) : Bool :=
  match (matchLit w1.data s).bind wsPlus with
  | none => false
  | some r =>
    (matchLit w2.data r).isSome ||
    (match (matchLit "a".data r).bind wsPlus with
     | some r2 => (matchLit w2.data r2).isSome
     | none => false)

/-- `/mail\s+(my|the)?/i` at the current position (the optional group may
match empty, so the test reduces to `mail` + whitespace). -/
def mailAt (s : List Char) : Bool :=
  ((matchLit "mail".data s).bind wsPlus).isSome

/-- `/send\s+(an?\s+)?email|email\s+to|compose\s+email|mail\s+(my|the)?/i`. -/
def emailRe (t : List Char) : Bool :=
  (toLowerStr t).tails.any (fun s =>
    sendEmailAt s || litWsLitAt "email" "to" s ||
    litWsLitAt "compose" "email" s || mailAt s)

/-- `/schedule|calendar|meeting|appointment|event|book\s+(a\s+)?date|set\s+(a\s+)?reminder/i`. -/
def calendarRe (t : List Char) : Bool :=
  containsCI "schedule" t || containsCI "calendar" t || containsCI "meeting" t ||
  containsCI "appointment" t || containsCI "event" t ||
  (toLowerStr t).tails.any (fun s =>
    litOptAAt "book" "date" s || litOptAAt "set" "reminder" s)

/-- `/analyze|summarize|extract|tell.*about.*document|what.*document|document.*about|pdf|explain.*pdf/i`. -/
def documentRe (t : List Char) : Bool :=
  containsCI "analyze" t || containsCI "summarize" t || containsCI "extract" t ||
  seqCI "tell" ["about", "document"] t || seqCI "what" ["document"] t ||
  seqCI "document" ["about"] t || containsCI "pdf" t ||
  seqCI "explain" ["pdf"] t

/-- `/^(hi|hey|hello|what's up|how are you|good morning|good evening|who are you|what is your name|my name is)/i`. -/
def greetingRe (t : List Char) : Bool :=
  let lt := toLowerStr t
  ["hi", "hey", "hello", "what's up", "how are you", "good morning",
    "good evening", "who are you", "what is your name", "my name is"].any
    (fun p => (matchLit p.data lt).isSome)

/-- `/explain|compare|analyze|why|how does|detail/i`. -/
def simpleNegRe (t : List Char) : Bool :=
  containsCI "explain" t || containsCI "compare" t || containsCI "analyze" t ||
  containsCI "why" t || containsCI "how does" t || containsCI "detail" t

/-- `/explain.*detail|compare|analyze|what.*difference|step.*step|detailed|comprehensive|thorough/i`. -/
def complexARe (t : List Char) : Bool :=
  seqCI "explain" ["detail"] t || containsCI "compare" t ||
  containsCI "analyze" t || seqCI "what" ["difference"] t ||
  seqCI "step" ["step"] t || containsCI "detailed" t ||
  containsCI "comprehensive" t || containsCI "thorough" t

/-- `/tell me about|describe|what is|how does/i`. -/
def complexBRe (t : List Char) : Bool :=
  containsCI "tell me about" t || containsCI "describe" t ||
  containsCI "what is" t || containsCI "how does" t

/-- `/code|program|algorithm|implement/i`. -/
def complexCRe (t : List Char) : Bool :=
  containsCI "code" t || containsCI "program" t ||
  containsCI "algorithm" t || containsCI "implement" t

/-- `/document|pdf|file/i` (the document-mode test in `routeRequest`). -/
def docFileRe (t : List Char) : Bool :=
  containsCI "document" t || containsCI "pdf" t || containsCI "file" t

inductive IntentType | email | calendar | document | greeting | general
  deriving DecidableEq

inductive Complexity | simple | medium | complex
  deriving DecidableEq

/-- `classifyIntent` from `backend/intelligentRouter.js`, branch for branch. -/
def classifyIntent (text : List Char) : IntentType × Complexity :=
  if emailRe text then (.email, .complex)
  else if calendarRe text then (.calendar, .complex)
  else if documentRe text then (.document, .complex)
  else if greetingRe text then (.greeting, .simple)
  else if text.length < 50 && !(simpleNegRe text) then (.general, .simple)
  else if decide (text.length > 100) || complexARe text || complexBRe text ||
      complexCRe text then (.general, .complex)
  else (.general, .medium)

/-! ### The response cache (a JS `Map` of key → {response, timestamp}) -/

def CACHE_TTL : Nat := 5 * 60 * 1000

def MAX_CACHE_SIZE : Nat := 100

/-- One cache entry. -/
structure CacheEntry where
  key : List Char
  response : List Char
  timestamp : Nat
  deriving DecidableEq

/-- The cache: entries in insertion order (JS `Map` iteration order). -/
abbrev Cache := List CacheEntry

def mapGet (c : Cache) (k : List Char) : Option CacheEntry :=
  List.find? (fun e => e.key = k) c

def mapDelete (c : Cache) (k : List Char) : Cache :=
  List.filter (fun e => !(e.key = k : Bool)) c

def mapSet (c : Cache) (k resp : List Char) (ts : Nat) : Cache :=
  if (mapGet c k).isSome then
    List.map (fun e => if e.key = k then ⟨k, resp, ts⟩ else e) c
  else c ++ [⟨k, resp, ts⟩]

def cacheSize (c : Cache) : Nat := List.length c

/-- `getCacheKey(text, memoryContext, hasDocument)`: lowercase, trim, strip
punctuation, then hash together with the document flag; first 16 hex chars.
The `memoryContext` parameter is accepted and ignored, as in the source.
The MD5 hash is the oracle parameter `hash`. -/
def getCacheKey (hash : List Char → List Char) (text : List Char)
    (_memoryContext : List Char) (hasDocument : Bool) : List Char :=
  let normalized :=
    (jsTrim (toLowerStr text)).filter (fun c => isWordChar c || isJsWs c)
  (hash (normalized ++ (if hasDocument then "doc".data else "no-doc".data))).take 16

/-- `getCachedResponse(key)`: TTL-checked lookup with lazy expiry; returns
the hit (if any) and the possibly-purged cache. -/
def getCachedResponse (c : Cache) (k : List Char) (now : Nat) :
    Option (List Char) × Cache :=
  match mapGet c k with
  | some e =>
    if now - e.timestamp < CACHE_TTL then (some e.response, c)
    else (none, mapDelete c k)
  | none => (none, c)

/-- `setCachedResponse(key, response)`: the source computes `firstKey` but
then deletes `key` (the key being inserted) instead, so the eviction is a
no-op for fresh keys; translated faithfully. -/
def setCachedResponse (c : Cache) (k resp : List Char) (now : Nat) : Cache :=
  let c1 := if MAX_CACHE_SIZE ≤ cacheSize c then mapDelete c k else c
  mapSet c1 k resp now

/-! ### `routeRequest` -/

inductive Backend | geminiFlash | geminiPro | groqLlama
  deriving DecidableEq

/-- The outcome of one backend call: a reply, or a failure that either is an
`AbortError` (the cancellation token fired) or a generic backend error. -/
inductive CallResult | ok (text : List Char) | fail (isAbort : Bool)
  deriving DecidableEq

/-- Oracle giving each backend call its outcome for this route invocation. -/
structure BackendOracle where
  flash : CallResult
  pro : CallResult
  groq : CallResult
  deriving DecidableEq

def callBackend (o : BackendOracle) : Backend → CallResult
  | .geminiFlash => o.flash
  | .geminiPro => o.pro
  | .groqLlama => o.groq

/-- Outcome of the per-branch `try primary catch { if abort rethrow; groq }`. -/
inductive TryOutcome
  | ok (r : List Char)
  | abortErr
  | backendErr
  deriving DecidableEq

/-- The `try { primary } catch (err) { if (err.name === 'AbortError') throw
err; … groq }` pattern shared by all five branches of `routeRequest`. -/
def tryWithFallback (o : BackendOracle) (primary : Backend) :
    TryOutcome × List Backend :=
  match callBackend o primary with
  | .ok r => (.ok r, [primary])
  | .fail true => (.abortErr, [primary])
  | .fail false =>
    match o.groq with
    | .ok r => (.ok r, [primary, .groqLlama])
    | .fail true => (.abortErr, [primary, .groqLlama])
    | .fail false => (.backendErr, [primary, .groqLlama])

/-- JS truthiness of the optional document text (`!!documentContent`). -/
def optTruthy : Option (List Char) → Bool
  | some d => !(d.isEmpty)
  | none => false

/-- `response.replace(/^Gyaanchand:\s*/i, "").trim()`. -/
def cleanReply (r : List Char) : List Char := jsTrim (stripBotName r)

def APOLOGY : List Char :=
  "I'm having trouble processing that right now. Could you try asking again?".data

/-- The result of a `routeRequest` call: the returned value (`Except.error`
models the rethrown `AbortError`), the cache afterwards, and the backends
invoked, in order. -/
instance instDecEqExceptReply : DecidableEq (Except Unit (List Char)) :=
  fun a b =>
    match a, b with
    | .error u, .error v => isTrue (by cases u; cases v; rfl)
    | .ok x, .ok y =>
      if h : x = y then isTrue (by rw [h])
      else isFalse (fun hc => h (by cases hc; rfl))
    | .error _, .ok _ => isFalse (fun h => Except.noConfusion h)
    | .ok _, .error _ => isFalse (fun h => Except.noConfusion h)

structure RouteResult where
  outcome : Except Unit (List Char)
  cache : Cache
  calls : List Backend
  deriving DecidableEq

/-- The primary backend selected by the branch structure of `routeRequest`. -/
def selectedPrimary (text : List Char) (documentContent : Option (List Char)) :
    Backend :=
  let intent := classifyIntent text
  if optTruthy documentContent && (intent.1 = .document || docFileRe text) then
    .geminiPro
  else if intent.1 = .greeting then .geminiFlash
  else if intent.2 = .simple then .geminiFlash
  else if intent.2 = .medium then .geminiPro
  else .geminiPro

/-- `routeRequest(text, memoryContext, documentContent, signal)` — cache
check, branch on intent (prompts elided: they only feed the oracle), shared
fallback logic, reply cleaning, cache store, and the top-level `catch` that
rethrows `AbortError` and substitutes the apology for any other error. -/
def routeRequest (hash : List Char → List Char) (text memoryContext : List Char)
    (documentContent : Option (List Char)) (o : BackendOracle)
    (cache : Cache) (now : Nat) : RouteResult :=
  let intent := classifyIntent text
  let cacheKey := getCacheKey hash text memoryContext (optTruthy documentContent)
  let hit := getCachedResponse cache cacheKey now
  match hit.1 with
  | some r => { outcome := .ok r, cache := hit.2, calls := [] }
  | none =>
    let tryRes :=
      if optTruthy documentContent && (intent.1 = .document || docFileRe text)
      then tryWithFallback o .geminiPro
      else if intent.1 = .greeting then tryWithFallback o .geminiFlash
      else if intent.2 = .simple then tryWithFallback o .geminiFlash
      else if intent.2 = .medium then tryWithFallback o .geminiPro
      else tryWithFallback o .geminiPro
    match tryRes.1 with
    | .ok r =>
      let clean := cleanReply r
      { outcome := .ok clean,
        cache := setCachedResponse hit.2 cacheKey clean now,
        calls := tryRes.2 }
    | .abortErr => { outcome := .error (), cache := hit.2, calls := tryRes.2 }
    | .backendErr => { outcome := .ok APOLOGY, cache := hit.2, calls := tryRes.2 }

/-- A full cache: 100 entries with distinct two-digit keys. -/
def fullCache : Cache :=
  (List.range 100).map
    (fun i => ⟨[Char.ofNat (48 + i / 10), Char.ofNat (48 + i % 10)], "r".data, 0⟩)

/-! ## Client sink messages and the synthesis streamer
(`murfStreamSentences` in `backend/ttsStreamSentences.js`)

The sink sees JSON messages and binary audio frames; `ClientMsg` abstracts
the message kinds.  The Murf API and the WebSocket are external: each loop
iteration reads its generation outcome, the abort flag of the cancellation
signal (before and after generation) and the socket state from a
`ChunkEnv` oracle indexed by chunk number. -/

inductive ClientMsg
  | status (s : List Char)
  | transcriptMsg (t : List Char) (isFinal : Bool)
  | reply (t : List Char)
  | stopAudio
  | audioFrame (chunk : List Char)
  | ttsEnd
  | errMsg (m : List Char)
  | memoryUpdate
  deriving DecidableEq

/-- External observations for one iteration of the synthesis loop. -/
structure ChunkEnv where
  abortTop : Bool
  gen : CallResult
  abortAfter : Bool
  wsOpen : Bool

/-- The per-chunk loop of `murfStreamSentences`: check the signal, generate,
check the signal again, send if the socket is open; a cancelled generation
breaks (interrupted), a failed generation continues, a closed socket breaks
(not interrupted).  Returns the sent frames and the `interrupted` flag. -/
def murfLoop : List (List Char) → Nat → (Nat → ChunkEnv) →
    List ClientMsg × Bool
  | [], _, _ => ([], false)
  | chunk :: rest, i, env =>
    let e := env i
    if e.abortTop then ([], true)
    else
      match e.gen with
      | .fail isCancel =>
        if isCancel then ([], true)
        else murfLoop rest (i + 1) env
      | .ok _ =>
        if e.abortAfter then ([], true)
        else if e.wsOpen then
          let r := murfLoop rest (i + 1) env
          (ClientMsg.audioFrame chunk :: r.1, r.2)
        else ([], false)

/-- `murfStreamSentences(text, ws, opts)`: early return on empty/whitespace
text and on empty chunking; then the loop; then the delayed `tts_end`
message when the socket is still open and the stream was not interrupted
(`wsEnd` is the socket state at that later time). -/
def murfStreamSentences (text : List Char) (env : Nat → ChunkEnv)
    (wsEnd : Bool) : List ClientMsg :=
  if text.isEmpty then []
  else if (jsTrim text).isEmpty then []
  else
    let chunks := splitIntoChunks (sanitizeForTTS text)
    if chunks.isEmpty then []
    else
      let r := murfLoop chunks 0 env
      r.1 ++ (if wsEnd && !r.2 then [ClientMsg.ttsEnd] else [])

/-! ## The enhanced server's per-connection handler
(`openDeepgramSocket` in `server-enhanced.js`)

The Deepgram socket, the timers and the in-flight `routeRequest` promise
are asynchronous; the model is a state machine whose steps are the
synchronous sections between `await` points: `recvResults` (one recognition
event), `timerFire` (the debounce callback up to issuing the backend call),
and `resolveSuccess` / `resolveAbort` (the continuation when that call
resolves or rejects with `AbortError`).  Cancellation tokens
(`AbortController`s) are numbered; `fired` is the set of aborted ones. -/

/-- One Deepgram `Results` event, as read by the handler.  Confidence is a
rational; the source compares it only against 0.5 and 0.9. -/
structure RecEvent where
  text : List Char
  isFinal : Bool
  speechFinal : Bool
  confidence : ℚ

/-- The rolling per-connection memory (`memory` in the source). -/
structure MemoryState where
  userName : Option (List Char)
  lastUserMessages : List (List Char)
  lastBotMessages : List (List Char)
  deriving DecidableEq

/-- `push` then `shift` beyond four entries. -/
def pushCap4 (l : List (List Char)) (x : List Char) : List (List Char) :=
  let l2 := l ++ [x]
  if 4 < l2.length then l2.tail else l2

/-- `updateMemory(userMsg, botMsg)` (the state part; the `memory_update`
message it sends is emitted by the calling step). -/
def updateMemory (m : MemoryState) (userMsg botMsg : List Char) : MemoryState :=
  let m1 :=
    if userMsg.isEmpty then m
    else { m with lastUserMessages := pushCap4 m.lastUserMessages userMsg }
  if botMsg.isEmpty then m1
  else { m1 with lastBotMessages := pushCap4 m1.lastBotMessages botMsg }

def isAsciiLetter (c : Char) : Bool :=
  ('a' ≤ c && c ≤ 'z') || ('A' ≤ c && c ≤ 'Z')

/-- One alternative of the name regex at the current position:
the phrase (case-insensitive), `\s+`, then a captured `[A-Za-z]+`. -/
def namePhraseAt (p : String) (s : List Char) : Option (List Char) :=
  match matchCI p.data s with
  | some r =>
    match wsPlus r with
    | some r2 =>
      let cap := r2.takeWhile isAsciiLetter
      if cap.isEmpty then none else some cap
    | none => none
  | none => none

/-- `transcript.match(/(?:my name is|i am|i'm|call me)\s+([A-Za-z]+)/i)`:
leftmost match, alternatives in order, capture returned. -/
def detectName : List Char → Option (List Char)
  | [] => none
  | s@(_ :: rest) =>
    ((((namePhraseAt "my name is" s).orElse
        (fun _ => namePhraseAt "i am" s)).orElse
        (fun _ => namePhraseAt "i'm" s)).orElse
        (fun _ => namePhraseAt "call me" s)).orElse
      (fun _ => detectName rest)

/-- The noise-filter threshold 0.5, as a kernel-computable rational. -/
def HALF : ℚ := ⟨1, 2, by decide, by decide⟩

/-- The high-confidence threshold 0.9, as a kernel-computable rational. -/
def NINE_TENTHS : ℚ := ⟨9, 10, by decide, by decide⟩

/-- The `shouldProcess` predicate of the enhanced server
(`server-enhanced.js`): no `.` test, length threshold 8. -/
def shouldProcessEnhanced (ev : RecEvent) : Bool :=
  ev.speechFinal || decide (8 < ev.text.length) || ev.text.contains '?' ||
    decide (NINE_TENTHS < ev.confidence)

/-- The `shouldProcess` predicate of the basic server (`backend/server.js`):
includes the `.` test, length threshold 10. -/
def shouldProcessBasic (ev : RecEvent) : Bool :=
  ev.speechFinal || decide (10 < ev.text.length) || ev.text.contains '?' ||
    ev.text.contains '.' || decide (NINE_TENTHS < ev.confidence)

/-- Per-connection handler state. -/
structure SrvState where
  processingAudio : Bool
  isOpen : Bool
  currentCtrl : Option Nat
  fired : List Nat
  nextTok : Nat
  memory : MemoryState
  timer : Option (List Char × Nat)
  pending : Option (Nat × List Char)
  deriving DecidableEq

/-- The state right after the Deepgram socket opens. -/
def initState : SrvState :=
  { processingAudio := false, isOpen := true, currentCtrl := none,
    fired := [], nextTok := 0, memory := ⟨none, [], []⟩,
    timer := none, pending := none }

/-- The `dgWs.on("message")` handler for a `Results` event, line for line:
interrupt handling first (abort + `stop_audio` + `processingAudio = false`),
then the noise filter, then interim forwarding or final handling (clear the
debounce timer, forward the transcript, detect a name, and schedule the
debounce timer when `shouldProcess` holds and no turn is active). -/
def recvResults (st : SrvState) (ev : RecEvent) : SrvState × List ClientMsg :=
  if !st.isOpen then (st, [])
  else
    let step1 :=
      if st.processingAudio && !ev.isFinal && decide (2 < ev.text.length) then
        ({ st with
            fired := (match st.currentCtrl with
              | some t => t :: st.fired
              | none => st.fired),
            currentCtrl := none,
            processingAudio := false },
          [ClientMsg.stopAudio])
      else (st, [])
    let st1 := step1.1
    let m1 := step1.2
    if ev.confidence < HALF && decide (ev.text.length < 3) then (st1, m1)
    else if !(jsTrim ev.text).isEmpty then
      if !ev.isFinal then (st1, m1 ++ [ClientMsg.transcriptMsg ev.text false])
      else if 1 < (jsTrim ev.text).length then
        let st2 := { st1 with timer := none }
        let m2 := m1 ++ [ClientMsg.transcriptMsg ev.text true]
        let st3 :=
          match detectName ev.text with
          | some cap =>
            if 2 < cap.length then
              { st2 with memory := { st2.memory with userName := some cap } }
            else st2
          | none => st2
        if shouldProcessEnhanced ev && !st3.processingAudio then
          ({ st3 with
              timer := some (ev.text, if ev.speechFinal then 100 else 400) },
            m2)
        else (st3, m2)
      else (st1, m1)
    else (st1, m1)

/-- The debounce callback (`transcriptTimeout`), up to and including issuing
the backend call: re-check `processingAudio`, set it, send "Thinking...";
if the action handler claimed the turn, run the action reply path
synchronously; otherwise create the turn's `AbortController` and leave the
`routeRequest` call pending.  (The memory-context and document strings only
feed the external call and are elided.) -/
def timerFire (st : SrvState) (actionResult : Option (List Char))
    (env : Nat → ChunkEnv) (wsEnd : Bool) : SrvState × List ClientMsg :=
  match st.timer with
  | none => (st, [])
  | some (transcript, _) =>
    if st.processingAudio then ({ st with timer := none }, [])
    else
      let stp := { st with timer := none, processingAudio := true }
      match actionResult with
      | some amsg =>
        let tok := stp.nextTok
        ({ stp with
            nextTok := tok + 1,
            currentCtrl := none,
            processingAudio := false,
            memory := updateMemory stp.memory transcript amsg },
          [ClientMsg.status "Thinking...".data, ClientMsg.reply amsg,
            ClientMsg.status "Speaking...".data, ClientMsg.memoryUpdate] ++
            murfStreamSentences amsg env wsEnd ++
            [ClientMsg.status "Listening...".data])
      | none =>
        let tok := stp.nextTok
        ({ stp with
            nextTok := tok + 1,
            currentCtrl := some tok,
            pending := some (tok, transcript) },
          [ClientMsg.status "Thinking...".data])

/-- The continuation after `await routeRequest(...)` resolves successfully:
`updateMemory` (which sends `memory_update`), the `reply` message, the
"Speaking..." status, the synthesis stream, then "Listening..." — with no
check of the cancellation token anywhere on this path. -/
def resolveSuccess (st : SrvState) (reply : List Char) (env : Nat → ChunkEnv)
    (wsEnd : Bool) : SrvState × List ClientMsg :=
  match st.pending with
  | none => (st, [])
  | some (_, transcript) =>
    ({ st with
        pending := none,
        currentCtrl := none,
        processingAudio := false,
        memory := updateMemory st.memory transcript reply },
      [ClientMsg.memoryUpdate, ClientMsg.reply reply,
        ClientMsg.status "Speaking...".data] ++
        murfStreamSentences reply env wsEnd ++
        [ClientMsg.status "Listening...".data])

/-- The `catch` continuation when the backend call rejects with
`AbortError`: only the "Listening..." status; no memory update, no reply. -/
def resolveAbort (st : SrvState) : SrvState × List ClientMsg :=
  match st.pending with
  | none => (st, [])
  | some _ =>
    ({ st with pending := none, currentCtrl := none, processingAudio := false },
      [ClientMsg.status "Listening...".data])

/-! ### A concrete cancelled-turn trace (used for claim C1) -/

/-- A completed final utterance (no name phrase, end-of-speech marker). -/
def storyEvent : RecEvent := ⟨"Tell me a story now".data, true, true, ⟨19, 20, by decide, by decide⟩⟩

/-- A barge-in: a non-final fragment longer than the threshold, arriving
while the turn is processing. -/
def bargeEvent : RecEvent := ⟨"stop hold on".data, false, false, NINE_TENTHS⟩

/-- Synthesis-loop observations after the token fired: `signal.aborted`
reads `true` at every check. -/
def abortedEnv : Nat → ChunkEnv := fun _ => ⟨true, .ok "x".data, true, true⟩

/-- Turn completion: the final event schedules the debounce timer. -/
def cancelTraceS1 : SrvState × List ClientMsg := recvResults initState storyEvent

/-- The timer fires: "Thinking...", token 0 created, backend call pending. -/
def cancelTraceS2 : SrvState × List ClientMsg :=
  timerFire cancelTraceS1.1 none abortedEnv true

/-- The barge-in arrives before the backend call resolves: token 0 fired,
`stop_audio` sent. -/
def cancelTraceS3 : SrvState × List ClientMsg := recvResults cancelTraceS2.1 bargeEvent

/-- The backend call nevertheless resolves successfully afterwards. -/
def cancelTraceS4 : SrvState × List ClientMsg :=
  resolveSuccess cancelTraceS3.1 "Sure, here is a story.".data abortedEnv true

/-! ## Chunker lemmas -/

theorem jsTrim_length_le (l : List Char) : (jsTrim l).length ≤ l.length := by
  calc (jsTrim l).length
      = ((l.dropWhile isJsWs).reverse.dropWhile isJsWs).length := by
        simp [jsTrim]
    _ ≤ (l.dropWhile isJsWs).reverse.length :=
        (List.dropWhile_suffix _).sublist.length_le
    _ ≤ l.length := by
        simpa using (List.dropWhile_suffix (l := l) isJsWs).sublist.length_le

theorem jsTrim_cons_ws {c : Char} (h : isJsWs c = true) (l : List Char) :
    jsTrim (c :: l) = jsTrim l := by
  simp [jsTrim, List.dropWhile_cons, h]

theorem dropWhile_idem (p : Char → Bool) (l : List Char) :
    (l.dropWhile p).dropWhile p = l.dropWhile p := by
  induction l with
  | nil => rfl
  | cons a t ih => by_cases h : p a <;> simp [List.dropWhile_cons, h, ih]

theorem hasSB_cons_false {a : Char} {l : List Char} (h : hasSB (a :: l) = false) :
    hasSB l = false := by
  cases l with
  | nil => rfl
  | cons b r =>
    simp only [hasSB, Bool.or_eq_false_iff] at h
    exact h.2

theorem hasSB_append_right {l1 l2 : List Char} (h : hasSB l1 = true) :
    hasSB (l1 ++ l2) = true := by
  induction l1 with
  | nil => simp [hasSB] at h
  | cons a t ih =>
    cases t with
    | nil => simp [hasSB] at h
    | cons b r =>
      simp only [hasSB, Bool.or_eq_true] at h
      rcases h with h | h
      · simp [hasSB, h]
      · have := ih h
        simp only [List.cons_append] at this ⊢
        simp [hasSB, this]

theorem hasSB_prefix_false {l1 l2 : List Char} (h : hasSB (l1 ++ l2) = false) :
    hasSB l1 = false := by
  by_contra hc
  rw [hasSB_append_right (Bool.of_not_eq_false hc)] at h
  exact Bool.true_eq_false.mp h

theorem hasSB_suffix_false {l1 l2 : List Char} (h : hasSB (l1 ++ l2) = false) :
    hasSB l2 = false := by
  induction l1 with
  | nil => simpa using h
  | cons a t ih => exact ih (hasSB_cons_false h)

theorem hasSB_snoc (acc : List Char) (c : Char) :
    hasSB (acc ++ [c]) = (hasSB acc || (endsSentence acc && isJsWs c)) := by
  induction acc with
  | nil => simp [hasSB, endsSentence]
  | cons a t ih =>
    cases t with
    | nil => simp [hasSB, endsSentence, isSentEnd]
    | cons b r =>
      have hlast : endsSentence (a :: b :: r) = endsSentence (b :: r) := by
        simp [endsSentence, List.getLast?_cons_cons]
      have h1 : (a :: b :: r) ++ [c] = a :: b :: (r ++ [c]) := by simp
      have h2 : b :: (r ++ [c]) = (b :: r) ++ [c] := by simp
      rw [h1, hasSB, h2, ih, hasSB, hlast]
      cases isSentEnd a && isJsWs b <;>
        cases hasSB (b :: r) <;>
        cases endsSentence (b :: r) && isJsWs c <;> simp

/-- Segments produced by the sentence splitter never contain a sentence
boundary: the splitter splits exactly at every `[.!?]`-whitespace pair. -/
theorem sentSplitAux_hasSB :
    ∀ (input : List Char) (mode : Bool) (acc : List Char),
      hasSB acc = false →
      ∀ s ∈ sentSplitAux mode input acc, hasSB s = false := by
  intro input
  induction input with
  | nil =>
    intro mode acc hacc s hs
    cases mode <;> (simp [sentSplitAux] at hs; simpa [hs] using hacc)
  | cons c rest ih =>
    intro mode acc hacc s hs
    cases mode with
    | false =>
      by_cases hb : isJsWs c && endsSentence acc
      · simp only [sentSplitAux, hb, if_pos] at hs
        rcases List.mem_cons.mp hs with rfl | hs
        · exact hacc
        · exact ih true [] rfl s hs
      · simp only [sentSplitAux, hb, if_neg, Bool.false_eq_true,
          not_false_iff] at hs
        refine ih false (acc ++ [c]) ?_ s hs
        rw [hasSB_snoc, hacc]
        simp only [Bool.false_or]
        cases hws : isJsWs c
        · simp
        · cases hes : endsSentence acc
          · simp
          · rw [hws, hes] at hb; simp at hb
    | true =>
      by_cases hws : isJsWs c
      · simp only [sentSplitAux, hws, if_pos] at hs
        exact ih true acc hacc s hs
      · simp only [sentSplitAux, hws, if_neg, Bool.false_eq_true,
          not_false_iff] at hs
        refine ih false (acc ++ [c]) ?_ s hs
        rw [hasSB_snoc, hacc]
        simp [hws]

/-- Sentences produced by `sentenceSplit` contain no sentence boundary. -/
theorem sentenceSplit_hasSB {l : List Char} {s : List Char}
    (hs : s ∈ sentenceSplit l) : hasSB s = false :=
  sentSplitAux_hasSB l false [] rfl s (List.mem_of_mem_filter hs)

theorem chompAndBut_isSome_mono {x t : List Char}
    (h : (chompAndBut x).isSome = true) : (chompAndBut (x ++ t)).isSome = true := by
  match x with
  | [] => simp [chompAndBut] at h
  | [c1] => simp [chompAndBut] at h
  | [c1, c2] => simp [chompAndBut] at h
  | [c1, c2, c3] => simp [chompAndBut] at h
  | c1 :: c2 :: c3 :: d :: r =>
    by_cases hcond :
        (((c1 = 'a' && c2 = 'n' && c3 = 'd') || (c1 = 'b' && c2 = 'u' && c3 = 't'))
          && isJsWs d) = true
    · simp [chompAndBut, hcond]
    · simp [chompAndBut, hcond] at h

theorem chompAndBut_some_suffix {x y : List Char}
    (h : chompAndBut x = some y) : y <:+ x := by
  match x with
  | [] => simp [chompAndBut] at h
  | [c1] => simp [chompAndBut] at h
  | [c1, c2] => simp [chompAndBut] at h
  | [c1, c2, c3] => simp [chompAndBut] at h
  | c1 :: c2 :: c3 :: d :: r =>
    by_cases hcond :
        (((c1 = 'a' && c2 = 'n' && c3 = 'd') || (c1 = 'b' && c2 = 'u' && c3 = 't'))
          && isJsWs d) = true
    · simp only [chompAndBut, hcond, if_pos, Option.some.injEq] at h
      subst h
      exact (List.dropWhile_suffix _).trans ⟨[c1, c2, c3], rfl⟩
    · simp [chompAndBut, hcond] at h

theorem startsSep_nil : startsSep [] = false := rfl

theorem startsSep_cons (c : Char) (rest : List Char) :
    startsSep (c :: rest) =
      if c = ',' || c = ';' then headIsWs rest
      else isJsWs c && (chompAndBut (rest.dropWhile isJsWs)).isSome := rfl

theorem crossSep_nil (input : List Char) : crossSep [] input = false := rfl

theorem crossSep_cons (c : Char) (rest input : List Char) :
    crossSep (c :: rest) input =
      (startsSep (c :: (rest ++ input)) || crossSep rest input) := rfl

theorem startsSep_mono {s t : List Char} (h : startsSep s = true) :
    startsSep (s ++ t) = true := by
  match s with
  | [] => rw [startsSep_nil] at h; exact absurd h (by simp)
  | c :: rest =>
    rw [startsSep_cons] at h
    rw [List.cons_append, startsSep_cons]
    by_cases hcs : (c = ',' || c = ';') = true
    · rw [if_pos hcs] at h
      rw [if_pos hcs]
      match rest with
      | [] => exact absurd h (by simp [headIsWs])
      | d :: rtl => simpa [headIsWs] using h
    · rw [if_neg hcs] at h
      rw [if_neg hcs]
      obtain ⟨h1, h2⟩ := Bool.and_eq_true_iff.mp h
      refine Bool.and_eq_true_iff.mpr ⟨h1, ?_⟩
      have hne : rest.dropWhile isJsWs ≠ [] := by
        intro hnil
        rw [hnil] at h2
        exact absurd h2 (by simp [chompAndBut])
      have happ : (rest ++ t).dropWhile isJsWs = rest.dropWhile isJsWs ++ t := by
        rw [List.dropWhile_append]
        simp [List.isEmpty_iff, hne]
      rw [happ]
      exact chompAndBut_isSome_mono h2

theorem crossSep_append (l1 l2 input : List Char) :
    crossSep (l1 ++ l2) input =
      (crossSep l1 (l2 ++ input) || crossSep l2 input) := by
  induction l1 with
  | nil => simp [crossSep_nil]
  | cons c rest ih =>
    rw [List.cons_append, crossSep_cons, crossSep_cons, ih, List.append_assoc,
      Bool.or_assoc]

theorem crossSep_false_nil {l input : List Char} (h : crossSep l input = false) :
    crossSep l [] = false := by
  induction l with
  | nil => rfl
  | cons c rest ih =>
    rw [crossSep_cons] at h ⊢
    rcases Bool.or_eq_false_iff.mp h with ⟨hs, hr⟩
    rw [ih hr, Bool.or_false]
    cases hss : startsSep (c :: (rest ++ [])) with
    | false => rfl
    | true =>
      have : startsSep ((c :: (rest ++ [])) ++ input) = true := startsSep_mono hss
      rw [List.append_nil] at this
      rw [show (c :: rest) ++ input = c :: (rest ++ input) from rfl] at this
      rw [this] at hs
      exact hs

theorem allWs_dropWhile_append {r l : List Char}
    (h : ∀ x ∈ r, isJsWs x = true) :
    (r ++ l).dropWhile isJsWs = l.dropWhile isJsWs := by
  induction r with
  | nil => simp
  | cons a t ih =>
    have ha := h a (by simp)
    simp only [List.cons_append, List.dropWhile_cons, ha, if_pos]
    exact ih (fun x hx => h x (by simp [hx]))

theorem allWs_crossSep {r input : List Char}
    (hws : ∀ x ∈ r, isJsWs x = true)
    (hch : chompAndBut (input.dropWhile isJsWs) = none) :
    crossSep r input = false := by
  induction r with
  | nil => rfl
  | cons w r3 ih =>
    have hw := hws w (by simp)
    have hwc : ¬((w = ',' || w = ';') = true) := by
      intro hcs
      rcases Bool.or_eq_true_iff.mp hcs with h1 | h1
      · rw [of_decide_eq_true h1] at hw
        exact absurd hw (by decide)
      · rw [of_decide_eq_true h1] at hw
        exact absurd hw (by decide)
    rw [crossSep_cons]
    refine Bool.or_eq_false_iff.mpr ⟨?_, ih (fun x hx => hws x (by simp [hx]))⟩
    rw [startsSep_cons, if_neg hwc]
    have : (r3 ++ input).dropWhile isJsWs = input.dropWhile isJsWs :=
      allWs_dropWhile_append (fun x hx => hws x (by simp [hx]))
    rw [this, hch]
    simp

theorem dropWhile_length_le (p : Char → Bool) (l : List Char) :
    (l.dropWhile p).length ≤ l.length :=
  (List.dropWhile_suffix p).sublist.length_le

theorem hasSB_of_suffix {l' l : List Char} (hs : l' <:+ l)
    (h : hasSB l = false) : hasSB l' = false := by
  obtain ⟨pre, hpre⟩ := hs
  subst hpre
  exact hasSB_suffix_false h

/-- Equation lemmas for the fuelled scanner (definitional). -/
theorem secSplitAux_zero (input acc : List Char) :
    secSplitAux 0 input acc = [acc ++ input] := rfl

theorem secSplitAux_nil (fuel : Nat) (acc : List Char) :
    secSplitAux (fuel + 1) [] acc = [acc] := rfl

theorem secSplitAux_cons (fuel : Nat) (c : Char) (rest acc : List Char) :
    secSplitAux (fuel + 1) (c :: rest) acc =
    (if c = ',' || c = ';' then
      match rest with
      | d :: _ =>
        if isJsWs d then acc :: secSplitAux fuel (rest.dropWhile isJsWs) []
        else secSplitAux fuel rest (acc ++ [c])
      | [] => secSplitAux fuel [] (acc ++ [c])
    else if isJsWs c then
      match chompAndBut (rest.dropWhile isJsWs) with
      | some rest2 => acc :: secSplitAux fuel rest2 []
      | none => secSplitAux fuel (rest.dropWhile isJsWs)
          (acc ++ (c :: rest.takeWhile isJsWs))
    else secSplitAux fuel rest (acc ++ [c])) := rfl

/-- Scanner invariant for the secondary split: every part it emits contains
no sentence boundary (inherited from the input sentence) and no secondary
separator (the scanner split at every one of them). -/
theorem secSplitAux_inv :
    ∀ (fuel : Nat) (input acc : List Char),
      input.length ≤ fuel →
      hasSB (acc ++ input) = false →
      crossSep acc input = false →
      ∀ p ∈ secSplitAux fuel input acc, hasSB p = false ∧ hasSec p = false := by
  intro fuel
  induction fuel with
  | zero =>
    intro input acc hlen hsb hcs p hp
    have hnil : input = [] := List.length_eq_zero.mp (Nat.le_zero.mp hlen)
    subst hnil
    rw [secSplitAux_zero] at hp
    simp only [List.mem_singleton] at hp
    subst hp
    rw [List.append_nil] at hsb ⊢
    exact ⟨hsb, hcs⟩
  | succ fuel ih =>
    intro input acc hlen hsb hcs p hp
    cases input with
    | nil =>
      rw [secSplitAux_nil] at hp
      simp only [List.mem_singleton] at hp
      subst hp
      rw [List.append_nil] at hsb
      exact ⟨hsb, hcs⟩
    | cons c rest =>
      have hrest : rest.length ≤ fuel := by
        simpa using Nat.succ_le_succ_iff.mp (by simpa using hlen)
      by_cases hcomma : (c = ',' || c = ';') = true
      · cases rest with
        | nil =>
          simp only [secSplitAux_cons, hcomma, if_pos] at hp
          refine ih [] (acc ++ [c]) (by simp) ?_ ?_ p hp
          · simpa using hsb
          · have h1 := crossSep_append acc [c] []
            have h2 : crossSep [c] [] = false := by
              rw [crossSep_cons, crossSep_nil, Bool.or_false]
              rw [show ([] : List Char) ++ [] = [] from rfl, startsSep_cons,
                if_pos hcomma]
              rfl
            rw [h1, h2, Bool.or_false]
            simpa using hcs
        | cons d rtl =>
          by_cases hd : isJsWs d = true
          · simp only [secSplitAux_cons, hcomma, if_pos, hd] at hp
            rcases List.mem_cons.mp hp with rfl | hp
            · exact ⟨hasSB_prefix_false hsb, crossSep_false_nil hcs⟩
            · refine ih ((d :: rtl).dropWhile isJsWs) [] ?_ ?_ rfl p hp
              · exact le_trans (dropWhile_length_le _ _) hrest
              · rw [List.nil_append]
                refine hasSB_of_suffix ?_ hsb
                refine (List.dropWhile_suffix _).trans ?_
                exact ⟨acc ++ [c], by simp⟩
          · simp only [secSplitAux_cons, hcomma, if_pos, hd, Bool.false_eq_true,
              if_neg, not_false_iff] at hp
            refine ih (d :: rtl) (acc ++ [c]) hrest ?_ ?_ p hp
            · simpa using hsb
            · have h1 := crossSep_append acc [c] (d :: rtl)
              have h2 : crossSep [c] (d :: rtl) = false := by
                rw [crossSep_cons, crossSep_nil, Bool.or_false]
                rw [List.nil_append, startsSep_cons, if_pos hcomma]
                simpa [headIsWs] using hd
              rw [h1, h2, Bool.or_false]
              simpa using hcs
      · by_cases hwc : isJsWs c = true
        · cases hch : chompAndBut (rest.dropWhile isJsWs) with
          | some rest2 =>
            simp only [secSplitAux_cons, hcomma, Bool.false_eq_true, if_neg,
              not_false_iff, hwc, if_pos, hch] at hp
            rcases List.mem_cons.mp hp with rfl | hp
            · exact ⟨hasSB_prefix_false hsb, crossSep_false_nil hcs⟩
            · refine ih rest2 [] ?_ ?_ rfl p hp
              · have hsuf : rest2 <:+ rest.dropWhile isJsWs :=
                  chompAndBut_some_suffix hch
                exact le_trans (le_trans hsuf.sublist.length_le
                  (dropWhile_length_le _ _)) hrest
              · rw [List.nil_append]
                refine hasSB_of_suffix ?_ hsb
                refine ((chompAndBut_some_suffix hch).trans
                  ((List.dropWhile_suffix _).trans ?_))
                exact ⟨acc ++ [c], by simp⟩
          | none =>
            simp only [secSplitAux_cons, hcomma, Bool.false_eq_true, if_neg,
              not_false_iff, hwc, if_pos, hch] at hp
            refine ih (rest.dropWhile isJsWs)
              (acc ++ (c :: rest.takeWhile isJsWs))
              (le_trans (dropWhile_length_le _ _) hrest) ?_ ?_ p hp
            · have heq : (acc ++ (c :: rest.takeWhile isJsWs)) ++
                  rest.dropWhile isJsWs = acc ++ (c :: rest) := by
                rw [List.append_assoc]
                simp only [List.cons_append]
                rw [List.takeWhile_append_dropWhile]
              rw [heq]
              exact hsb
            · have h1 := crossSep_append acc (c :: rest.takeWhile isJsWs)
                (rest.dropWhile isJsWs)
              have harg : (c :: rest.takeWhile isJsWs) ++
                  rest.dropWhile isJsWs = c :: rest := by
                simp only [List.cons_append]
                rw [List.takeWhile_append_dropWhile]
              have h2 : crossSep (c :: rest.takeWhile isJsWs)
                  (rest.dropWhile isJsWs) = false := by
                refine allWs_crossSep ?_ ?_
                · intro x hx
                  rcases List.mem_cons.mp hx with rfl | hx
                  · exact hwc
                  · exact List.mem_takeWhile_imp hx
                · rw [dropWhile_idem]
                  exact hch
              rw [h1, harg, h2, Bool.or_false]
              exact hcs
        · simp only [secSplitAux_cons, hcomma, Bool.false_eq_true, if_neg,
            not_false_iff, hwc] at hp
          refine ih rest (acc ++ [c]) hrest ?_ ?_ p hp
          · simpa using hsb
          · have h1 := crossSep_append acc [c] rest
            have h2 : crossSep [c] rest = false := by
              rw [crossSep_cons, crossSep_nil, Bool.or_false]
              rw [List.nil_append, startsSep_cons, if_neg (by simpa using hcomma)]
              simp [hwc]
            rw [h1, h2, Bool.or_false]
            simpa using hcs

/-- Parts of the secondary split of a boundary-free sentence are atomic:
no sentence boundary and no secondary separator inside. -/
theorem splitLongSentence_atomic {s : List Char} (h : hasSB s = false) :
    ∀ p ∈ splitLongSentence s, hasSB p = false ∧ hasSec p = false :=
  secSplitAux_inv (s.length + 1) s [] (Nat.le_succ _) (by simpa using h) rfl

theorem chunkOk_of_length {x : List Char} (h : x.length ≤ 150) : chunkOk x :=
  Or.inl (le_trans (jsTrim_length_le x) h)

theorem secStep_ok {st : List (List Char) × List Char} {p : List Char}
    (h1 : ∀ x ∈ st.1, chunkOk x) (h2 : chunkOk st.2)
    (hp : hasSB p = false ∧ hasSec p = false) :
    (∀ x ∈ (secStep st p).1, chunkOk x) ∧ chunkOk (secStep st p).2 := by
  obtain ⟨chunks, cur⟩ := st
  by_cases hg : (jsTrim (cur ++ ' ' :: p)).length ≤ 150
  · constructor
    · intro x hx
      simp only [secStep, hg, if_pos] at hx
      exact h1 x hx
    · simp only [secStep, hg, if_pos]
      by_cases he : cur.isEmpty
      · simp only [he, if_pos]
        have hcur : cur = [] := by simpa [List.isEmpty_iff] using he
        subst hcur
        refine Or.inl ?_
        have : jsTrim (([] : List Char) ++ ' ' :: p) = jsTrim p := by
          rw [List.nil_append, jsTrim_cons_ws (by decide)]
        rw [this] at hg
        exact hg
      · simp only [he, if_neg, Bool.false_eq_true, not_false_iff]
        exact Or.inl hg
  · constructor
    · intro x hx
      simp only [secStep, hg, if_neg, not_false_iff] at hx
      by_cases he : cur.isEmpty
      · simp only [he, if_pos] at hx
        exact h1 x hx
      · simp only [he, if_neg, Bool.false_eq_true, not_false_iff] at hx
        rcases List.mem_append.mp hx with hx | hx
        · exact h1 x hx
        · rw [List.mem_singleton.mp hx]
          exact h2
    · simp only [secStep, hg, if_neg, not_false_iff]
      exact Or.inr hp

theorem secFold_ok :
    ∀ (ps : List (List Char)) (st : List (List Char) × List Char),
      (∀ x ∈ st.1, chunkOk x) → chunkOk st.2 →
      (∀ p ∈ ps, hasSB p = false ∧ hasSec p = false) →
      (∀ x ∈ (ps.foldl secStep st).1, chunkOk x) ∧
        chunkOk (ps.foldl secStep st).2 := by
  intro ps
  induction ps with
  | nil => intro st h1 h2 _; exact ⟨h1, h2⟩
  | cons p ps ih =>
    intro st h1 h2 hps
    have hstep := secStep_ok h1 h2 (hps p (by simp))
    rw [List.foldl_cons]
    exact ih (secStep st p) hstep.1 hstep.2 (fun q hq => hps q (by simp [hq]))

theorem primaryStep_ok {st : List (List Char) × List Char} {s : List Char}
    (h1 : ∀ x ∈ st.1, chunkOk x) (h2 : chunkOk st.2)
    (hs : hasSB s = false) :
    (∀ x ∈ (primaryStep st s).1, chunkOk x) ∧ chunkOk (primaryStep st s).2 := by
  obtain ⟨chunks, cur⟩ := st
  simp only [primaryStep]
  by_cases hg : (if cur.isEmpty then s else cur ++ ' ' :: s).length ≤ 150
  · simp only [hg, if_pos]
    refine ⟨h1, ?_⟩
    by_cases he : cur.isEmpty
    · simp only [he, if_pos] at hg ⊢
      exact chunkOk_of_length hg
    · simp only [he, Bool.false_eq_true, if_neg, not_false_iff] at hg ⊢
      exact chunkOk_of_length hg
  · simp only [hg, if_neg, not_false_iff]
    have hch1 : ∀ x ∈ (if cur.isEmpty then chunks else chunks ++ [cur]),
        chunkOk x := by
      intro x hx
      by_cases he : cur.isEmpty
      · simp only [he, if_pos] at hx
        exact h1 x hx
      · simp only [he, Bool.false_eq_true, if_neg, not_false_iff] at hx
        rcases List.mem_append.mp hx with hx | hx
        · exact h1 x hx
        · rw [List.mem_singleton.mp hx]
          exact h2
    by_cases hl : s.length ≤ 150
    · simp only [hl, if_pos]
      exact ⟨hch1, chunkOk_of_length hl⟩
    · simp only [hl, if_neg, not_false_iff]
      exact secFold_ok (splitLongSentence s) _ hch1 h2
        (splitLongSentence_atomic hs)

theorem primFold_ok :
    ∀ (ss : List (List Char)) (st : List (List Char) × List Char),
      (∀ x ∈ st.1, chunkOk x) → chunkOk st.2 →
      (∀ s ∈ ss, hasSB s = false) →
      (∀ x ∈ (ss.foldl primaryStep st).1, chunkOk x) ∧
        chunkOk (ss.foldl primaryStep st).2 := by
  intro ss
  induction ss with
  | nil => intro st h1 h2 _; exact ⟨h1, h2⟩
  | cons s ss ih =>
    intro st h1 h2 hss
    have hstep := primaryStep_ok h1 h2 (hss s (by simp))
    rw [List.foldl_cons]
    exact ih (primaryStep st s) hstep.1 hstep.2 (fun q hq => hss q (by simp [hq]))

/-- Every chunk produced by `splitIntoChunks` is well formed. -/
theorem splitIntoChunks_ok {l : List Char} :
    ∀ c ∈ splitIntoChunks l, chunkOk c := by
  intro c hc
  unfold splitIntoChunks at hc
  by_cases he : (sanitizeForTTS l).isEmpty
  · simp only [he, if_pos] at hc
    exact absurd hc (List.not_mem_nil c)
  · simp only [he, Bool.false_eq_true, if_neg, not_false_iff] at hc
    have hfold := primFold_ok (sentenceSplit (sanitizeForTTS l)) ([], [])
      (by intro x hx; exact absurd hx (List.not_mem_nil x))
      (chunkOk_of_length (by simp))
      (fun s hs => sentenceSplit_hasSB hs)
    unfold finishChunks at hc
    by_cases hcur :
        ((sentenceSplit (sanitizeForTTS l)).foldl primaryStep ([], [])).2.isEmpty
    · simp only [hcur, if_pos] at hc
      exact hfold.1 c hc
    · simp only [hcur, Bool.false_eq_true, if_neg, not_false_iff] at hc
      rcases List.mem_append.mp hc with hc | hc
      · exact hfold.1 c hc
      · rw [List.mem_singleton.mp hc]
        exact hfold.2

/-! ## Round-trip lemmas for the chunker -/

theorem joinSpace_cons_ne {c : List Char} {L : List (List Char)} (h : L ≠ []) :
    joinSpace (c :: L) = c ++ ' ' :: joinSpace L := by
  cases L with
  | nil => exact absurd rfl h
  | cons d r => rfl

theorem joinSpace_merge :
    ∀ (xs : List (List Char)) (a b : List Char) (r : List (List Char)),
      joinSpace (xs ++ a :: b :: r) = joinSpace (xs ++ (a ++ ' ' :: b) :: r) := by
  intro xs
  induction xs with
  | nil =>
    intro a b r
    cases r with
    | nil => rfl
    | cons x r2 =>
      simp only [List.nil_append]
      rw [joinSpace_cons_ne (c := a) (by simp),
        joinSpace_cons_ne (c := b) (by simp),
        joinSpace_cons_ne (c := a ++ ' ' :: b) (by simp)]
      simp [List.append_assoc]
  | cons y xs ih =>
    intro a b r
    rw [List.cons_append, List.cons_append,
      joinSpace_cons_ne (by simp), joinSpace_cons_ne (by simp), ih]

/-- The greedy accumulation loop only regroups sentences: joining the emitted
chunks with single spaces equals joining the pending state plus the remaining
sentences, provided every sentence is nonempty and within the bound (so the
secondary-split branch is never taken). -/
theorem primFold_join :
    ∀ (ss : List (List Char)) (chunks : List (List Char)) (cur : List Char),
      (∀ s ∈ ss, s ≠ [] ∧ s.length ≤ 150) →
      joinSpace (finishChunks (ss.foldl primaryStep (chunks, cur))) =
        joinSpace (finishChunks (chunks, cur) ++ ss) := by
  intro ss
  induction ss with
  | nil =>
    intro chunks cur _
    simp
  | cons s ss ih =>
    intro chunks cur hss
    obtain ⟨hne, hlen⟩ := hss s (by simp)
    rw [List.foldl_cons]
    have hss2 : ∀ q ∈ ss, q ≠ [] ∧ q.length ≤ 150 :=
      fun q hq => hss q (by simp [hq])
    by_cases hcur : cur.isEmpty
    · have hcur2 : cur = [] := by simpa [List.isEmpty_iff] using hcur
      subst hcur2
      have hstep : primaryStep (chunks, []) s = (chunks, s) := by
        simp only [primaryStep, List.isEmpty_nil, if_pos, hlen]
      rw [hstep, ih chunks s hss2]
      have hfin1 : finishChunks (chunks, s) = chunks ++ [s] := by
        simp [finishChunks, List.isEmpty_iff, hne]
      have hfin2 : finishChunks (chunks, ([] : List Char)) = chunks := by
        simp [finishChunks]
      rw [hfin1, hfin2, List.append_assoc]
      rfl
    · have hne2 : cur ≠ [] := by simpa [List.isEmpty_iff] using hcur
      have hfin : finishChunks (chunks, cur) = chunks ++ [cur] := by
        simp [finishChunks, List.isEmpty_iff, hne2]
      by_cases hcand : (cur ++ ' ' :: s).length ≤ 150
      · have hstep : primaryStep (chunks, cur) s = (chunks, cur ++ ' ' :: s) := by
          simp only [primaryStep, hcur, Bool.false_eq_true, if_neg,
            not_false_iff, hcand, if_pos]
        rw [hstep, ih chunks (cur ++ ' ' :: s) hss2]
        have hfin3 : finishChunks (chunks, cur ++ ' ' :: s) =
            chunks ++ [cur ++ ' ' :: s] := by
          simp [finishChunks, List.isEmpty_iff]
        rw [hfin3, hfin]
        have e1 : (chunks ++ [cur ++ ' ' :: s]) ++ ss =
            chunks ++ (cur ++ ' ' :: s) :: ss := by simp
        have e2 : (chunks ++ [cur]) ++ s :: ss = chunks ++ cur :: s :: ss := by
          simp
        rw [e1, e2, ← joinSpace_merge]
      · have hstep : primaryStep (chunks, cur) s = (chunks ++ [cur], s) := by
          simp only [primaryStep, hcur, Bool.false_eq_true, if_neg,
            not_false_iff, hcand, hlen, if_pos]
        rw [hstep, ih (chunks ++ [cur]) s hss2]
        have hfin3 : finishChunks (chunks ++ [cur], s) =
            (chunks ++ [cur]) ++ [s] := by
          simp [finishChunks, List.isEmpty_iff, hne]
        rw [hfin3, hfin]
        congr 1
        simp

theorem noDoubleSpace_tail {a : Char} {l : List Char}
    (h : noDoubleSpace (a :: l) = true) : noDoubleSpace l = true := by
  cases l with
  | nil => rfl
  | cons b r => exact (Bool.and_eq_true_iff.mp h).2

theorem endsSentence_ne_nil {acc : List Char} (h : endsSentence acc = true) :
    acc ≠ [] := by
  intro hnil
  subst hnil
  simp [endsSentence] at h

/-- Joining the sentence-split segments of a whitespace-normalized text with
single spaces reproduces the text: each consumed separator was a single
space. -/
theorem sentSplitAux_join :
    ∀ (n : Nat) (input acc : List Char), input.length ≤ n →
      (∀ c ∈ input, isJsWs c = true → c = ' ') →
      noDoubleSpace input = true →
      input.getLast? ≠ some ' ' →
      joinSpace ((sentSplitAux false input acc).filter (fun s => !(s.isEmpty)))
        = acc ++ input := by
  intro n
  induction n with
  | zero =>
    intro input acc hlen _ _ _
    have : input = [] := List.length_eq_zero.mp (Nat.le_zero.mp hlen)
    subst this
    by_cases hacc : acc.isEmpty
    · have : acc = [] := by simpa [List.isEmpty_iff] using hacc
      subst this
      rfl
    · have hne : acc ≠ [] := by simpa [List.isEmpty_iff] using hacc
      simp [sentSplitAux, List.filter_cons, List.isEmpty_iff, hne, joinSpace]
  | succ n ih =>
    intro input acc hlen hws hchain hlast
    cases input with
    | nil =>
      by_cases hacc : acc.isEmpty
      · have : acc = [] := by simpa [List.isEmpty_iff] using hacc
        subst this
        rfl
      · have hne : acc ≠ [] := by simpa [List.isEmpty_iff] using hacc
        simp [sentSplitAux, List.filter_cons, List.isEmpty_iff, hne, joinSpace]
    | cons c rest =>
      by_cases hsplit : (isJsWs c && endsSentence acc) = true
      · obtain ⟨hwc, hes⟩ := Bool.and_eq_true_iff.mp hsplit
        have hc : c = ' ' := hws c (by simp) hwc
        have haccne : acc ≠ [] := endsSentence_ne_nil hes
        cases rest with
        | nil =>
          exact absurd (by rw [hc]; rfl) hlast
        | cons d rest2 =>
          have hd : ¬(c = ' ' ∧ d = ' ') := by
            have := (Bool.and_eq_true_iff.mp hchain).1
            simp only [Bool.not_eq_true', Bool.and_eq_false_iff] at this
            rintro ⟨h1, h2⟩
            rcases this with h | h <;> simp_all
          have hdne : d ≠ ' ' := fun hdd => hd ⟨hc, hdd⟩
          have hdw : isJsWs d = false := by
            cases hdw : isJsWs d with
            | false => rfl
            | true => exact absurd (hws d (by simp) hdw) hdne
          have hstep1 : sentSplitAux false (c :: d :: rest2) acc =
              acc :: sentSplitAux false rest2 [d] := by
            rw [sentSplitAux]
            rw [if_pos hsplit]
            rw [sentSplitAux]
            rw [if_neg (by simp [hdw])]
            rfl
          have hlen2 : rest2.length ≤ n := by
            have : rest2.length + 2 ≤ n + 1 := by simpa using hlen
            omega
          have hih := ih rest2 [d] hlen2
            (fun x hx hwx => hws x (by simp [hx]) hwx)
            (noDoubleSpace_tail (noDoubleSpace_tail hchain))
            (by
              cases rest2 with
              | nil => simp [hdne]
              | cons x r3 =>
                have : (c :: d :: x :: r3).getLast? = (x :: r3).getLast? := by
                  rw [List.getLast?_cons_cons, List.getLast?_cons_cons]
                rw [this] at hlast
                exact hlast)
          rw [hstep1]
          have hfilter : (acc :: sentSplitAux false rest2 [d]).filter
              (fun s => !(s.isEmpty)) =
              acc :: (sentSplitAux false rest2 [d]).filter
                (fun s => !(s.isEmpty)) := by
            simp [List.filter_cons, List.isEmpty_iff, haccne]
          rw [hfilter]
          have hJne : (sentSplitAux false rest2 [d]).filter
              (fun s => !(s.isEmpty)) ≠ [] := by
            intro hnil
            rw [hnil] at hih
            simp [joinSpace] at hih
          rw [joinSpace_cons_ne hJne, hih, hc]
          simp
      · have hstep : sentSplitAux false (c :: rest) acc =
            sentSplitAux false rest (acc ++ [c]) := by
          rw [sentSplitAux, if_neg hsplit]
        rw [hstep]
        have hlen2 : rest.length ≤ n := by simpa using Nat.succ_le_succ_iff.mp (by simpa using hlen)
        have hih := ih rest (acc ++ [c]) hlen2
          (fun x hx hwx => hws x (by simp [hx]) hwx)
          (noDoubleSpace_tail hchain)
          (by
            cases rest with
            | nil => simp
            | cons x r3 =>
              have : (c :: x :: r3).getLast? = (x :: r3).getLast? :=
                List.getLast?_cons_cons
              rw [this] at hlast
              exact hlast)
        rw [hih]
        simp

/-- `sentenceSplit` round-trips on whitespace-normalized text. -/
theorem sentenceSplit_join {l : List Char} (h : wsTame l) :
    joinSpace (sentenceSplit l) = l := by
  have := sentSplitAux_join l.length l [] le_rfl h.1 h.2.1 h.2.2
  simpa [sentenceSplit] using this

/-! ## Claim C5 and C6 theorems -/

set_option maxRecDepth 200000 in
/-- **C5, counterexample.**  The round-trip claim fails as stated: for the
153-character input `"aaa…a, bb"` (one sentence longer than the bound), the
secondary split drops the `", "` separator, so joining the chunks with
single spaces does not reproduce the sanitized text. -/
theorem C5_roundTrip_cex :
    roundTripCex.length = 153 ∧
    joinSpace (splitIntoChunks roundTripCex) ≠ sanitizeForTTS roundTripCex := by
  constructor
  · decide
  · decide

/-- **C5 (amended).**  For every input whose sanitized text is
whitespace-normalized (all whitespace is single plain spaces, no trailing
space — guaranteed when the input has no non-whitespace control characters)
and whose sentences are each within the 150-character bound (so the
separator-dropping secondary split is never taken), concatenating all chunks
joined with single spaces reproduces the sanitized input text exactly. -/
theorem C5_roundTrip_amended (l : List Char)
    (hnorm : wsTame (sanitizeForTTS l))
    (hlen : ∀ s ∈ sentenceSplit (sanitizeForTTS l), s.length ≤ 150) :
    joinSpace (splitIntoChunks l) = sanitizeForTTS l := by
  unfold splitIntoChunks
  by_cases he : (sanitizeForTTS l).isEmpty
  · have hnil : sanitizeForTTS l = [] := by simpa [List.isEmpty_iff] using he
    simp [he, hnil, joinSpace]
  · simp only [he, Bool.false_eq_true, if_neg, not_false_iff]
    have hss : ∀ s ∈ sentenceSplit (sanitizeForTTS l),
        s ≠ [] ∧ s.length ≤ 150 := by
      intro s hs
      refine ⟨?_, hlen s hs⟩
      have := List.of_mem_filter hs
      simpa [List.isEmpty_iff] using this
    rw [primFold_join (sentenceSplit (sanitizeForTTS l)) [] [] hss]
    have h2 : finishChunks ([], []) = ([] : List (List Char)) := by
      simp [finishChunks]
    rw [h2, List.nil_append]
    exact sentenceSplit_join hnorm

set_option maxRecDepth 200000 in
/-- Witness for `C5_roundTrip_amended` at a concrete input. -/
theorem C5_roundTrip_witness :
    wsTame (sanitizeForTTS "Hello there. How are you?".data) ∧
    (∀ s ∈ sentenceSplit (sanitizeForTTS "Hello there. How are you?".data),
      s.length ≤ 150) ∧
    joinSpace (splitIntoChunks "Hello there. How are you?".data) =
      sanitizeForTTS "Hello there. How are you?".data :=
  ⟨by decide, by decide, C5_roundTrip_amended _ (by decide) (by decide)⟩

set_option maxRecDepth 200000 in
/-- **C6, counterexample.**  The bound claim fails as stated: on the input
`"XY. ccc…c , dd"` the loop carries the already-emitted chunk `"XY. "` into
the secondary split (the source never resets `current` before that loop) and
appends a part with trailing whitespace, producing a 151-character chunk that
contains a sentence boundary (`". "`), hence is not an atomic fragment. -/
theorem C6_chunkBound_cex :
    ∃ c ∈ splitIntoChunks boundCex, 150 < c.length ∧ hasSB c = true := by
  decide

/-- **C6 (amended).**  Every chunk produced by the splitter either has
trimmed length at most the 150-character bound, or is an atomic fragment:
it contains no sentence boundary and no secondary separator (comma,
semicolon, or whitespace-delimited `and`/`but`).  (The untrimmed length can
exceed the bound by carried whitespace, as the counterexample shows.) -/
theorem C6_chunkBound_amended (l : List Char) :
    ∀ c ∈ splitIntoChunks l,
      (jsTrim c).length ≤ 150 ∨ (hasSB c = false ∧ hasSec c = false) :=
  fun c hc => splitIntoChunks_ok c hc

set_option maxRecDepth 200000 in
/-- Witness for `C6_chunkBound_amended` at a concrete input. -/
theorem C6_chunkBound_witness :
    "Hello. World.".data ∈ splitIntoChunks "Hello. World.".data ∧
    ((jsTrim "Hello. World.".data).length ≤ 150 ∨
      (hasSB "Hello. World.".data = false ∧ hasSec "Hello. World.".data = false)) :=
  ⟨by decide, C6_chunkBound_amended "Hello. World.".data _ (by decide)⟩

/-! ## Router lemmas and claim theorems (C3, C7, C8, C9) -/

theorem find?_map_update {c : List CacheEntry} {k : List Char}
    (h : (List.find? (fun e => e.key = k) c).isSome = true) (v : List Char)
    (ts : Nat) :
    List.find? (fun e => e.key = k)
      (c.map (fun e => if e.key = k then ⟨k, v, ts⟩ else e)) =
      some ⟨k, v, ts⟩ := by
  induction c with
  | nil => simp at h
  | cons e rest ih =>
    by_cases he : e.key = k
    · simp [List.find?_cons, he]
    · have hd : (decide (e.key = k)) = false := decide_eq_false he
      simp only [List.find?_cons, hd] at h
      simp only [List.map_cons, if_neg he, List.find?_cons, hd]
      exact ih h

theorem mapGet_mapSet_self (c : Cache) (k v : List Char) (ts : Nat) :
    mapGet (mapSet c k v ts) k = some ⟨k, v, ts⟩ := by
  unfold mapSet mapGet
  by_cases hc : (List.find? (fun e => e.key = k) c).isSome = true
  · rw [if_pos hc]
    exact find?_map_update hc v ts
  · rw [if_neg hc]
    have hn : List.find? (fun e => e.key = k) c = none := by
      cases hx : List.find? (fun e => e.key = k) c with
      | none => rfl
      | some e => rw [hx] at hc; simp at hc
    rw [List.find?_append, hn]
    simp [List.find?_cons]

theorem mapGet_setCached_self (c : Cache) (k v : List Char) (ts : Nat) :
    mapGet (setCachedResponse c k v ts) k = some ⟨k, v, ts⟩ := by
  unfold setCachedResponse
  exact mapGet_mapSet_self _ k v ts

/-- On a cache miss, `routeRequest` runs the shared primary-then-fallback
logic with the branch-selected primary. -/
theorem routeRequest_miss (hash : List Char → List Char)
    (text memoryContext : List Char) (documentContent : Option (List Char))
    (o : BackendOracle) (cache : Cache) (now : Nat)
    (hmiss : (getCachedResponse cache
      (getCacheKey hash text memoryContext (optTruthy documentContent))
      now).1 = none) :
    routeRequest hash text memoryContext documentContent o cache now =
      (match (tryWithFallback o (selectedPrimary text documentContent)).1 with
       | .ok r =>
         { outcome := .ok (cleanReply r),
           cache := setCachedResponse
             (getCachedResponse cache
               (getCacheKey hash text memoryContext (optTruthy documentContent))
               now).2
             (getCacheKey hash text memoryContext (optTruthy documentContent))
             (cleanReply r) now,
           calls := (tryWithFallback o (selectedPrimary text documentContent)).2 }
       | .abortErr =>
         { outcome := .error (),
           cache := (getCachedResponse cache
             (getCacheKey hash text memoryContext (optTruthy documentContent))
             now).2,
           calls := (tryWithFallback o (selectedPrimary text documentContent)).2 }
       | .backendErr =>
         { outcome := .ok APOLOGY,
           cache := (getCachedResponse cache
             (getCacheKey hash text memoryContext (optTruthy documentContent))
             now).2,
           calls := (tryWithFallback o (selectedPrimary text documentContent)).2 }) := by
  simp only [routeRequest, selectedPrimary, hmiss]
  split_ifs <;> rfl

/-- On a cache hit, `routeRequest` returns the cached reply with no calls. -/
theorem routeRequest_hit (hash : List Char → List Char)
    (text memoryContext : List Char) (documentContent : Option (List Char))
    (o : BackendOracle) (cache : Cache) (now : Nat) (r : List Char)
    (hhit : (getCachedResponse cache
      (getCacheKey hash text memoryContext (optTruthy documentContent))
      now).1 = some r) :
    routeRequest hash text memoryContext documentContent o cache now =
      { outcome := .ok r,
        cache := (getCachedResponse cache
          (getCacheKey hash text memoryContext (optTruthy documentContent))
          now).2,
        calls := [] } := by
  simp only [routeRequest, hhit]

/-- **C3.**  On a cache miss the branch-selected primary backend is invoked
first; a non-cancellation primary failure triggers exactly one fallback call
to Groq whose (cleaned) answer is returned; a cancellation error from the
primary propagates out immediately and the fallback is not invoked. -/
theorem C3_fallbackChain (hash : List Char → List Char)
    (text memoryContext : List Char) (documentContent : Option (List Char))
    (o : BackendOracle) (cache : Cache) (now : Nat)
    (hmiss : (getCachedResponse cache
      (getCacheKey hash text memoryContext (optTruthy documentContent))
      now).1 = none) :
    ((routeRequest hash text memoryContext documentContent o cache now).calls.head?
      = some (selectedPrimary text documentContent)) ∧
    (∀ r, callBackend o (selectedPrimary text documentContent) = .fail false →
      o.groq = .ok r →
      (routeRequest hash text memoryContext documentContent o cache now).calls =
        [selectedPrimary text documentContent, .groqLlama] ∧
      (routeRequest hash text memoryContext documentContent o cache now).outcome =
        .ok (cleanReply r)) ∧
    (callBackend o (selectedPrimary text documentContent) = .fail true →
      (routeRequest hash text memoryContext documentContent o cache now).calls =
        [selectedPrimary text documentContent] ∧
      (routeRequest hash text memoryContext documentContent o cache now).outcome =
        .error ()) := by
  rw [routeRequest_miss hash text memoryContext documentContent o cache now hmiss]
  refine ⟨?_, ?_, ?_⟩
  · cases hp : callBackend o (selectedPrimary text documentContent) with
    | ok r => simp [tryWithFallback, hp]
    | fail ab =>
      cases ab with
      | true => simp [tryWithFallback, hp]
      | false =>
        cases hg : o.groq with
        | ok r => simp [tryWithFallback, hp, hg]
        | fail ab2 => cases ab2 <;> simp [tryWithFallback, hp, hg]
  · intro r hfail hg
    simp [tryWithFallback, hfail, hg]
  · intro hfail
    simp [tryWithFallback, hfail]

/-- Witness for `C3_fallbackChain`: a failing primary and a healthy
fallback on an empty cache. -/
theorem C3_fallbackChain_witness :
    ((getCachedResponse [] (getCacheKey id "hi".data "m".data (optTruthy none)) 0).1
      = none) ∧
    ((routeRequest id "hi".data "m".data none
        ⟨.fail false, .ok "p".data, .ok "fallback answer".data⟩ [] 0).calls.head?
      = some (selectedPrimary "hi".data none)) := by
  constructor
  · rfl
  · exact (C3_fallbackChain id "hi".data "m".data none
      ⟨.fail false, .ok "p".data, .ok "fallback answer".data⟩ [] 0 rfl).1

/-- **C7.**  Two consecutive `route` calls with identical text, memory
snippet and document argument, where the first misses the cache and a
backend produces its reply, and the second starts within the TTL window,
return identical reply text, and the second call invokes no backend. -/
theorem C7_cacheIdempotent (hash : List Char → List Char)
    (text memoryContext : List Char) (documentContent : Option (List Char))
    (o1 o2 : BackendOracle) (cache : Cache) (t1 t2 : Nat) (r : List Char)
    (hmiss : (getCachedResponse cache
      (getCacheKey hash text memoryContext (optTruthy documentContent))
      t1).1 = none)
    (hok : (tryWithFallback o1 (selectedPrimary text documentContent)).1 =
      .ok r)
    (httl : t2 - t1 < CACHE_TTL) :
    ((routeRequest hash text memoryContext documentContent o2
        (routeRequest hash text memoryContext documentContent o1 cache t1).cache
        t2).outcome =
      (routeRequest hash text memoryContext documentContent o1 cache t1).outcome) ∧
    (routeRequest hash text memoryContext documentContent o2
        (routeRequest hash text memoryContext documentContent o1 cache t1).cache
        t2).calls = [] := by
  have h1 := routeRequest_miss hash text memoryContext documentContent o1 cache
    t1 hmiss
  rw [h1, hok]
  have hhit2 : (getCachedResponse
      (setCachedResponse
        (getCachedResponse cache
          (getCacheKey hash text memoryContext (optTruthy documentContent)) t1).2
        (getCacheKey hash text memoryContext (optTruthy documentContent))
        (cleanReply r) t1)
      (getCacheKey hash text memoryContext (optTruthy documentContent))
      t2).1 = some (cleanReply r) := by
    unfold getCachedResponse
    rw [mapGet_setCached_self]
    simp [httl]
  rw [routeRequest_hit hash text memoryContext documentContent o2 _ t2
    (cleanReply r) hhit2]
  exact ⟨rfl, rfl⟩

/-- Witness for `C7_cacheIdempotent` at a concrete input. -/
theorem C7_cacheIdempotent_witness :
    ((getCachedResponse [] (getCacheKey id "hi".data "m".data (optTruthy none))
      0).1 = none) ∧
    ((tryWithFallback ⟨.ok "Hello!".data, .fail false, .fail false⟩
      (selectedPrimary "hi".data none)).1 = .ok "Hello!".data) ∧
    ((routeRequest id "hi".data "m".data none
        ⟨.fail false, .fail false, .fail false⟩
        (routeRequest id "hi".data "m".data none
          ⟨.ok "Hello!".data, .fail false, .fail false⟩ [] 0).cache
        10).outcome =
      (routeRequest id "hi".data "m".data none
        ⟨.ok "Hello!".data, .fail false, .fail false⟩ [] 0).outcome) := by
  refine ⟨rfl, by decide, ?_⟩
  exact (C7_cacheIdempotent id "hi".data "m".data none
    ⟨.ok "Hello!".data, .fail false, .fail false⟩
    ⟨.fail false, .fail false, .fail false⟩ [] 0 10 "Hello!".data
    rfl (by decide) (by decide)).1

/-- **C8.**  The eviction in `setCachedResponse` deletes the key being
inserted instead of the computed `firstKey`, so storing a fresh key into a
full cache is a pure append: the size exceeds `MAX_CACHE_SIZE`. -/
theorem C8_cacheBound_bug :
    cacheSize fullCache = MAX_CACHE_SIZE ∧
    cacheSize (setCachedResponse fullCache "zz".data "r".data 0) =
      MAX_CACHE_SIZE + 1 := by
  constructor
  · decide
  · decide

/-- **C9.**  The cache fingerprint ignores the memory snippet entirely, so
the cached reply returned on a hit is independent of the memory context. -/
theorem C9_fingerprintIgnoresMemory (hash : List Char → List Char)
    (text m1 m2 : List Char) (documentContent : Option (List Char))
    (o1 o2 : BackendOracle) (cache : Cache) (now : Nat) (r : List Char) :
    (getCacheKey hash text m1 (optTruthy documentContent) =
      getCacheKey hash text m2 (optTruthy documentContent)) ∧
    ((getCachedResponse cache
        (getCacheKey hash text m1 (optTruthy documentContent)) now).1 = some r →
      (routeRequest hash text m1 documentContent o1 cache now).outcome = .ok r ∧
      (routeRequest hash text m2 documentContent o2 cache now).outcome = .ok r ∧
      (routeRequest hash text m1 documentContent o1 cache now).calls = [] ∧
      (routeRequest hash text m2 documentContent o2 cache now).calls = []) := by
  refine ⟨rfl, ?_⟩
  intro hhit
  have e1 := routeRequest_hit hash text m1 documentContent o1 cache now r hhit
  have e2 := routeRequest_hit hash text m2 documentContent o2 cache now r hhit
  rw [e1, e2]
  exact ⟨rfl, rfl, rfl, rfl⟩

/-- Witness for `C9_fingerprintIgnoresMemory` at a concrete input. -/
theorem C9_fingerprintIgnoresMemory_witness :
    ((getCachedResponse [⟨getCacheKey id "hi".data "memA".data false, "cached".data, 0⟩]
        (getCacheKey id "hi".data "memA".data (optTruthy none)) 3).1 =
      some "cached".data) ∧
    ((routeRequest id "hi".data "memA".data none
        ⟨.fail false, .fail false, .fail false⟩
        [⟨getCacheKey id "hi".data "memA".data false, "cached".data, 0⟩]
        3).outcome = .ok "cached".data ∧
      (routeRequest id "hi".data "memB".data none
        ⟨.fail false, .fail false, .fail false⟩
        [⟨getCacheKey id "hi".data "memA".data false, "cached".data, 0⟩]
        3).outcome = .ok "cached".data ∧
      (routeRequest id "hi".data "memA".data none
        ⟨.fail false, .fail false, .fail false⟩
        [⟨getCacheKey id "hi".data "memA".data false, "cached".data, 0⟩]
        3).calls = [] ∧
      (routeRequest id "hi".data "memB".data none
        ⟨.fail false, .fail false, .fail false⟩
        [⟨getCacheKey id "hi".data "memA".data false, "cached".data, 0⟩]
        3).calls = []) :=
  ⟨by decide,
    (C9_fingerprintIgnoresMemory id "hi".data "memA".data "memB".data none
      ⟨.fail false, .fail false, .fail false⟩
      ⟨.fail false, .fail false, .fail false⟩
      [⟨getCacheKey id "hi".data "memA".data false, "cached".data, 0⟩]
      3 "cached".data).2 (by decide)⟩

/-! ## Claim theorems C1, C2, C4, C10 -/

set_option maxRecDepth 200000 in
/-- **C1 (exhibiting the code bug).**  In the trace
[final event → turn starts, token 0 → barge-in fires token 0 → the backend
call resolves successfully], the resolution path runs `updateMemory` and
sends the `reply` and "Speaking..." messages although token 0 was fired
before resolution: a cancelled turn does update Memory and does emit
reply/speaking notifications when its backend call completes successfully
after cancellation (only the audio frames and `tts_end` are suppressed). -/
theorem C1_cancelSuppression_bug :
    (0 ∈ cancelTraceS3.1.fired) ∧
    cancelTraceS2.1.pending = some (0, "Tell me a story now".data) ∧
    cancelTraceS3.1.pending = some (0, "Tell me a story now".data) ∧
    cancelTraceS4.1.memory ≠ cancelTraceS2.1.memory ∧
    cancelTraceS4.1.memory.lastUserMessages = ["Tell me a story now".data] ∧
    ClientMsg.memoryUpdate ∈ cancelTraceS4.2 ∧
    ClientMsg.reply "Sure, here is a story.".data ∈ cancelTraceS4.2 ∧
    ClientMsg.status "Speaking...".data ∈ cancelTraceS4.2 := by
  decide

/-- **C2.**  While a turn is processing, a non-final event longer than the
barge-in threshold makes the handler fire the active turn's token and emit
`stop_audio` as the *first* message of the event — the theorem holds for
every confidence value, so the interrupt precedes the noise-suppression
filter — and it leaves the pending backend call untouched with its token
now fired, so any later resolution happens after the firing. -/
theorem C2_bargeInPriority (st : SrvState) (ev : RecEvent)
    (hopen : st.isOpen = true)
    (hproc : st.processingAudio = true)
    (hfin : ev.isFinal = false)
    (hlen : 2 < ev.text.length) :
    ((recvResults st ev).2.head? = some ClientMsg.stopAudio) ∧
    (∀ t, st.currentCtrl = some t → t ∈ (recvResults st ev).1.fired) ∧
    ((recvResults st ev).1.processingAudio = false) ∧
    ((recvResults st ev).1.pending = st.pending) := by
  have hcond :
      (st.processingAudio && !ev.isFinal && decide (2 < ev.text.length)) =
        true := by
    simp [hproc, hfin, hlen]
  unfold recvResults
  simp only [hopen, Bool.not_true, Bool.false_eq_true, if_neg, not_false_iff,
    hcond, if_pos]
  by_cases hf : (ev.confidence < HALF && decide (ev.text.length < 3)) = true
  · simp only [hf, if_pos]
    exact ⟨by simp, fun t ht => by simp [ht], by simp, by simp⟩
  · simp only [hf, if_neg, not_false_iff, Bool.false_eq_true]
    by_cases htr : (jsTrim ev.text).isEmpty
    · simp only [Bool.not_eq_true, htr, Bool.not_true, Bool.false_eq_true,
        if_neg, not_false_iff]
      exact ⟨by simp, fun t ht => by simp [ht], by simp, by simp⟩
    · simp only [Bool.not_eq_true, htr, Bool.not_false, if_true, hfin]
      exact ⟨by simp, fun t ht => by simp [ht], by simp, by simp⟩

/-- Witness for `C2_bargeInPriority`: the trace state where the backend
call is pending. -/
theorem C2_bargeInPriority_witness :
    (cancelTraceS2.1.isOpen = true ∧ cancelTraceS2.1.processingAudio = true ∧
      bargeEvent.isFinal = false ∧ 2 < bargeEvent.text.length) ∧
    ((recvResults cancelTraceS2.1 bargeEvent).2.head? =
      some ClientMsg.stopAudio) := by
  refine ⟨⟨by decide, by decide, rfl, by decide⟩, ?_⟩
  exact (C2_bargeInPriority cancelTraceS2.1 bargeEvent (by decide) (by decide)
    rfl (by decide)).1

set_option maxRecDepth 200000 in
/-- **C4, counterexample.**  In the enhanced server a short final event
whose text contains terminal `.` (but no `?`, no end-of-speech marker, low
confidence, length 8) does *not* become a turn-completion candidate: no
debounce timer is scheduled, although the claim's disjunction (terminal
punctuation `?` or `.`) holds.  The basic server's predicate would accept
it. -/
theorem C4_candidate_cex :
    (("Ok then.".data : List Char).contains '.' = true) ∧
    shouldProcessBasic ⟨"Ok then.".data, true, false, ⟨3, 5, by decide, by decide⟩⟩
      = true ∧
    shouldProcessEnhanced
      ⟨"Ok then.".data, true, false, ⟨3, 5, by decide, by decide⟩⟩ = false ∧
    (recvResults initState
      ⟨"Ok then.".data, true, false, ⟨3, 5, by decide, by decide⟩⟩).1.timer =
      none := by
  decide

/-- **C4 (amended).**  In the enhanced server, a final event received while
no turn is active and no completion is pending becomes a turn-completion
candidate (the debounce timer is scheduled) exactly when its trimmed text
has length at least 2, it passes the noise filter, and one of: the
end-of-speech marker, text length over 8, a `?` in the text, or confidence
over 0.9.  Terminal `.` alone does not qualify.  (The basic server variant
additionally accepts `.` and uses threshold 10, as `shouldProcessBasic`
records.) -/
theorem C4_candidate_amended (st : SrvState) (ev : RecEvent)
    (hopen : st.isOpen = true)
    (hidle : st.processingAudio = false)
    (htimer : st.timer = none)
    (hfin : ev.isFinal = true) :
    ((recvResults st ev).1.timer ≠ none ↔
      (1 < (jsTrim ev.text).length ∧
        ¬(ev.confidence < HALF ∧ ev.text.length < 3) ∧
        (ev.speechFinal = true ∨ 8 < ev.text.length ∨
          ev.text.contains '?' = true ∨ NINE_TENTHS < ev.confidence))) := by
  unfold recvResults
  simp only [hopen, hidle, hfin, Bool.not_true, Bool.false_and,
    Bool.and_false, Bool.false_eq_true, if_neg, not_false_iff]
  by_cases hf : (ev.confidence < HALF && decide (ev.text.length < 3)) = true
  · simp only [hf, if_pos, htimer]
    constructor
    · intro h; exact absurd rfl h
    · rintro ⟨-, hnf, -⟩
      exact absurd (by simpa using hf) hnf
  · simp only [hf, if_neg, not_false_iff, Bool.false_eq_true]
    have hnf : ¬(ev.confidence < HALF ∧ ev.text.length < 3) := by
      intro hc
      exact hf (by simp [hc.1, hc.2])
    by_cases htr : (jsTrim ev.text).isEmpty
    · simp only [Bool.not_eq_true, htr, Bool.not_true, Bool.false_eq_true,
        if_neg, not_false_iff, htimer]
      constructor
      · intro h; exact absurd rfl h
      · rintro ⟨hlen2, -, -⟩
        have : (jsTrim ev.text) = [] := by simpa [List.isEmpty_iff] using htr
        rw [this] at hlen2
        simp at hlen2
    · simp only [Bool.not_eq_true, htr, Bool.not_false, if_true,
        Bool.false_eq_true, if_neg, not_false_iff]
      by_cases hlen2 : 1 < (jsTrim ev.text).length
      · rw [if_pos hlen2]
        by_cases hsp : shouldProcessEnhanced ev = true
        · have hcond2 : (shouldProcessEnhanced ev && !false) = true := by
            simp [hsp]
          cases hdet : detectName ev.text with
          | none =>
            simp only [hdet, hcond2, if_pos]
            constructor
            · intro _
              refine ⟨hlen2, hnf, ?_⟩
              have hd := hsp
              simp only [shouldProcessEnhanced, Bool.or_eq_true_iff,
                decide_eq_true_eq] at hd
              tauto
            · intro _; simp
          | some cap =>
            by_cases hcap : 2 < cap.length
            · simp only [hdet, hcap, if_pos, hcond2]
              constructor
              · intro _
                refine ⟨hlen2, hnf, ?_⟩
                have hd := hsp
                simp only [shouldProcessEnhanced, Bool.or_eq_true_iff,
                  decide_eq_true_eq] at hd
                tauto
              · intro _; simp
            · simp only [hdet, hcap, if_neg, not_false_iff, hcond2, if_pos]
              constructor
              · intro _
                refine ⟨hlen2, hnf, ?_⟩
                have hd := hsp
                simp only [shouldProcessEnhanced, Bool.or_eq_true_iff,
                  decide_eq_true_eq] at hd
                tauto
              · intro _; simp
        · have hcond2 : (shouldProcessEnhanced ev && !false) = false := by
            have hspf : shouldProcessEnhanced ev = false :=
              Bool.eq_false_iff.mpr hsp
            simp [hspf]
          cases hdet : detectName ev.text with
          | none =>
            simp only [hdet, hcond2, Bool.false_eq_true, if_neg,
              not_false_iff]
            constructor
            · intro h; exact absurd rfl h
            · rintro ⟨-, -, hdisj⟩
              refine absurd ?_ hsp
              simp only [shouldProcessEnhanced, Bool.or_eq_true_iff,
                decide_eq_true_eq]
              tauto
          | some cap =>
            by_cases hcap : 2 < cap.length
            · simp only [hdet, hcap, if_pos, hcond2, Bool.false_eq_true,
                if_neg, not_false_iff]
              constructor
              · intro h; exact absurd rfl h
              · rintro ⟨-, -, hdisj⟩
                refine absurd ?_ hsp
                simp only [shouldProcessEnhanced, Bool.or_eq_true_iff,
                  decide_eq_true_eq]
                tauto
            · simp only [hdet, hcap, if_neg, not_false_iff, hcond2,
                Bool.false_eq_true]
              constructor
              · intro h; exact absurd rfl h
              · rintro ⟨-, -, hdisj⟩
                refine absurd ?_ hsp
                simp only [shouldProcessEnhanced, Bool.or_eq_true_iff,
                  decide_eq_true_eq]
                tauto
      · rw [if_neg hlen2]
        simp only [htimer]
        constructor
        · intro h; exact absurd rfl h
        · rintro ⟨hl, -, -⟩
          exact absurd hl hlen2

set_option maxRecDepth 200000 in
/-- Witness for `C4_candidate_amended`: a final event with the end-of-speech
marker on the idle initial state. -/
theorem C4_candidate_witness :
    (initState.isOpen = true ∧ initState.processingAudio = false ∧
      initState.timer = none ∧ storyEvent.isFinal = true) ∧
    ((recvResults initState storyEvent).1.timer ≠ none ↔
      (1 < (jsTrim storyEvent.text).length ∧
        ¬(storyEvent.confidence < HALF ∧ storyEvent.text.length < 3) ∧
        (storyEvent.speechFinal = true ∨ 8 < storyEvent.text.length ∨
          storyEvent.text.contains '?' = true ∨
          NINE_TENTHS < storyEvent.confidence))) :=
  ⟨⟨rfl, rfl, rfl, rfl⟩,
    C4_candidate_amended initState storyEvent rfl rfl rfl rfl⟩

/-- **C10.**  A reply that is empty or whitespace-only makes the synthesis
streamer return before any send: no audio frame, no `tts_end`, no error
message — for every oracle and socket state. -/
theorem C10_emptyReplySilent (text : List Char) (env : Nat → ChunkEnv)
    (wsEnd : Bool) (h : jsTrim text = []) :
    murfStreamSentences text env wsEnd = [] := by
  unfold murfStreamSentences
  by_cases he : text.isEmpty
  · simp [he]
  · simp [he, h]

/-- Witness for `C10_emptyReplySilent` on a whitespace-only reply. -/
theorem C10_emptyReplySilent_witness :
    jsTrim "   ".data = [] ∧
    murfStreamSentences "   ".data (fun _ => ⟨false, .ok "a".data, false, true⟩)
      true = [] :=
  ⟨by decide,
    C10_emptyReplySilent "   ".data (fun _ => ⟨false, .ok "a".data, false, true⟩)
      true (by decide)⟩

end Gyaanchand
